import Mathlib

/-!
# Verification of the post-photorec deduplication engine

Shallow embedding of the deduplication core of `post-photorec.py`:
the byte-exact deduplicator, the perceptual image deduplicator and the
normalized-text deduplicator, together with the helper functions they use
(`removeFile`, `fileSize`, `similarEnoughRGBColors`, `imageWithInfo`,
`sameRatio`, `similarEnoughImages`, `sameImages`,
`removeSmallerVisualDuplicates`).

Modelling conventions:
* File contents are byte lists (`List Nat`); the filesystem is a partial map
  from paths to contents, threaded explicitly through the loops.
* Python lists that are indexed and mutated in place are modelled as
  functions `Nat → α` together with an explicit length, updated pointwise;
  the `for` loops over `range(...)` become structural recursion over the
  corresponding index lists (`List.range' a n`), where an early `break`
  returns the state and a `continue` recurses on the tail.
* Python float arithmetic in the image comparisons is modelled by exact
  rationals (with round-half-to-even for `round(x, 2)`); the concrete
  inputs used in the theorems stay away from representation boundaries.
* `os.remove` failures: `FileNotFoundError` is a no-op and `PermissionError`
  makes `removeFile` return silently; both are captured by the `locked`
  parameter below (a locked path is never actually erased).
-/

/-- A file's byte content. -/
abbrev Content := List Nat

/-- The filesystem: a partial map from paths to contents. -/
abbrev FS := String → Option Content

/-- `removeFile` (src lines 198-201): `os.remove` wrapped so that a missing
file is ignored and a permission error returns silently.  `locked` is the
set of paths whose deletion fails with `PermissionError`. -/
def removeFileM (locked : String → Bool) (fs : FS) (p : String) : FS :=
  if locked p then fs else fun q => if q = p then none else fs q

/-- `fileSize` (src lines 193-196): `os.stat(..).st_size`, 0 on error. -/
def fileSizeM (fs : FS) (p : String) : Nat :=
  match fs p with
  | some c => c.length
  | none => 0

/-- `os.path.exists`. -/
def existsM (fs : FS) (p : String) : Bool :=
  (fs p).isSome

/-- The head/tail signature of one file, as computed in src lines 1057-1064:
one `try` block reads the first four and the last four bytes (`unpack('i', ..)`
is injective on 4-byte strings, so we keep the raw bytes); any failure —
missing file or fewer than 4 bytes (`unpack`/`seek` raise) — yields `None`
for both values, modelled as a single `Option` over the pair. -/
def sigOf (fs : FS) (p : String) : Option (Content × Content) :=
  match fs p with
  | none => none
  | some c => if 4 ≤ c.length then some (c.take 4, c.drop (c.length - 4)) else none

/-- `filecmp.cmp(f1, f2, shallow=False)`: full byte-for-byte comparison.
Both files exist whenever the call is reached (the loop checks just before). -/
def filecmpM (fs : FS) (p q : String) : Bool :=
  match fs p, fs q with
  | some a, some b => a = b
  | _, _ => false

/-- One entry of the `files` list during the exact-deduplication phase:
the Python tuple `(size, ext, path)` built in src lines 1015-1018.
`ext` is `None` when `-d` (dedup across extensions) is given.  A removed
entry is overwritten with `(-1, '/', path)`. -/
structure FRec where
  size : Int
  ext : Option String
  path : String
deriving DecidableEq, Repr

/-- The tuple `(-1, r'/', p)` that marks an entry as removed. -/
def markRemoved (p : String) : FRec := ⟨-1, some "/", p⟩

/-- State threaded through the exact-dedup loop: the mutable `files` list
(as a function from index), the filesystem, and the `done` and
`actuallyDeduped` counters. -/
structure DState where
  recs : Nat → FRec
  fs : FS
  done : Nat
  dd : Nat

/-- Pointwise update of the record table (`files[j] = r`). -/
def updRec (recs : Nat → FRec) (j : Nat) (r : FRec) : Nat → FRec :=
  fun k => if k = j then r else recs k

/-- Inner loop of the exact deduplicator, src lines 1069-1085:
`for j in range(i+1, len(files))` with its `continue`/`break` structure.
`sigs` are the precomputed head/tail signatures (aligned with the records).
Returning `s` without recursing models `break`. -/
def innerExact (locked : String → Bool) (sigs : Nat → Option (Content × Content))
    (i : Nat) (s : DState) : List Nat → DState
  | [] => s
  | j :: js =>
    if (s.recs j).size = -1 then innerExact locked sigs i s js
    else if (s.recs i).size ≠ (s.recs j).size then s
    else if sigs i ≠ sigs j then innerExact locked sigs i s js
    else if (s.recs i).ext = (s.recs j).ext then
      if s.fs (s.recs i).path = none then
        -- src line 1075: `files[j] = (-1, r'/', files[i][2])`, then `break`
        { s with recs := updRec s.recs j (markRemoved (s.recs i).path) }
      else if s.fs (s.recs j).path = none then
        innerExact locked sigs i
          { s with recs := updRec s.recs j (markRemoved (s.recs j).path),
                   done := s.done + 1 } js
      else if filecmpM s.fs (s.recs i).path (s.recs j).path then
        innerExact locked sigs i
          { s with dd := s.dd + 1,
                   fs := removeFileM locked s.fs (s.recs j).path,
                   recs := updRec s.recs j (markRemoved (s.recs j).path) } js
      else innerExact locked sigs i s js
    else innerExact locked sigs i s js

/-- Outer loop of the exact deduplicator, src lines 1067-1087:
`for i in range(len(files))`, skipping entries already marked removed and
incrementing `done` after each processed seed. -/
def outerExact (locked : String → Bool) (sigs : Nat → Option (Content × Content))
    (n : Nat) (s : DState) : List Nat → DState
  | [] => s
  | i :: is =>
    if (s.recs i).size = -1 then outerExact locked sigs n s is
    else
      let s1 := innerExact locked sigs i s (List.range' (i + 1) (n - (i + 1)))
      outerExact locked sigs n { s1 with done := s1.done + 1 } is

/-- The exact-dedup scan (src lines 1067-1087) over `n` records with
precomputed signatures. -/
def exactDedupLoop (locked : String → Bool) (recs : Nat → FRec) (n : Nat)
    (sigs : Nat → Option (Content × Content)) (fs : FS) : DState :=
  outerExact locked sigs n ⟨recs, fs, 0, 0⟩ (List.range' 0 n)

/-- The whole exact-dedup phase (src lines 1056-1087): first precompute the
head/tail signatures from the filesystem (lines 1057-1064), then run the
quadratic scan. -/
def exactDedupPhase (locked : String → Bool) (recs : Nat → FRec) (n : Nat)
    (fs : FS) : DState :=
  exactDedupLoop locked recs n (fun k => sigOf fs (recs k).path) fs

/-- An entry of the exact-dedup result is marked removed. -/
def markedAt (s : DState) (k : Nat) : Prop := (s.recs k).size = -1

instance (s : DState) (k : Nat) : Decidable (markedAt s k) := by
  unfold markedAt; infer_instance

/-- `similarEnoughRGBColors` (src lines 731-736).  Faithful to the source:
the third component of the Python tuple `RGB` is the *boolean*
`abs(RGB1[2] - RGB2[2]) >= 10`, which arithmetic then coerces to 0 or 1,
so the test `RGB[2] > 10` can never fire and the blue delta contributes at
most 1 to the channel sum. -/
def similarEnoughRGBColors : Option (Int × Int × Int) → Option (Int × Int × Int) → Bool
  | none, _ => true
  | _, none => true
  | some (r1, g1, b1), some (r2, g2, b2) =>
    let dR := |r1 - r2|
    let dG := |g1 - g2|
    let dB : Int := if 10 ≤ |b1 - b2| then 1 else 0
    if dR > 10 ∨ dG > 10 ∨ dB > 10 ∨ dR + dG + dB > 15 then false else true

/-! ## Properties of the exact deduplicator -/

@[simp] lemma updRec_eq (recs : Nat → FRec) (j : Nat) (r : FRec) :
    updRec recs j r j = r := by
  simp [updRec]

lemma updRec_ne (recs : Nat → FRec) {j k : Nat} (r : FRec) (h : k ≠ j) :
    updRec recs j r k = recs k := by
  simp [updRec, h]

lemma size_updRec_markRemoved (recs : Nat → FRec) (j : Nat) (p : String) (k : Nat) :
    (updRec recs j (markRemoved p) k).size = if k = j then -1 else (recs k).size := by
  unfold updRec markRemoved
  split <;> rfl

lemma removeFileM_ne (locked : String → Bool) (fs : FS) {p q : String} (h : q ≠ p) :
    removeFileM locked fs p q = fs q := by
  unfold removeFileM
  split
  · rfl
  · simp [h]

lemma removeFileM_none (locked : String → Bool) (fs : FS) (p : String) {q : String}
    (h : fs q = none) : removeFileM locked fs p q = none := by
  unfold removeFileM
  split
  · exact h
  · by_cases hq : q = p <;> simp [hq, h]

lemma removeFileM_noLock_self (fs : FS) (p : String) :
    removeFileM (fun _ => false) fs p p = none := by
  simp [removeFileM]

/-- Marks are monotone through the inner exact-dedup loop: a record marked
removed never comes back. -/
lemma innerExact_marked_mono (locked : String → Bool)
    (sigs : Nat → Option (Content × Content)) (i : Nat) :
    ∀ (js : List Nat) (s : DState) (k : Nat), markedAt s k →
      markedAt (innerExact locked sigs i s js) k := by
  intro js
  induction js with
  | nil => intro s k h; simpa [innerExact] using h
  | cons j js ih =>
    intro s k h
    rw [innerExact]
    by_cases h1 : (s.recs j).size = -1
    · rw [if_pos h1]; exact ih s k h
    · rw [if_neg h1]
      by_cases h2 : (s.recs i).size ≠ (s.recs j).size
      · rw [if_pos h2]; exact h
      · rw [if_neg h2]
        by_cases h3 : sigs i ≠ sigs j
        · rw [if_pos h3]; exact ih s k h
        · rw [if_neg h3]
          by_cases h4 : (s.recs i).ext = (s.recs j).ext
          · rw [if_pos h4]
            by_cases h5 : s.fs (s.recs i).path = none
            · rw [if_pos h5]
              show (updRec s.recs j _ k).size = -1
              rw [size_updRec_markRemoved]
              split
              · rfl
              · exact h
            · rw [if_neg h5]
              by_cases h6 : s.fs (s.recs j).path = none
              · rw [if_pos h6]
                refine ih _ k ?_
                show (updRec s.recs j _ k).size = -1
                rw [size_updRec_markRemoved]
                split
                · rfl
                · exact h
              · rw [if_neg h6]
                by_cases h7 : filecmpM s.fs (s.recs i).path (s.recs j).path = true
                · rw [if_pos h7]
                  refine ih _ k ?_
                  show (updRec s.recs j _ k).size = -1
                  rw [size_updRec_markRemoved]
                  split
                  · rfl
                  · exact h
                · rw [if_neg h7]; exact ih s k h
          · rw [if_neg h4]; exact ih s k h

/-- The inner loop only marks indices occurring in its index list: records at
other indices are untouched. -/
lemma innerExact_recs_other (locked : String → Bool)
    (sigs : Nat → Option (Content × Content)) (i : Nat) :
    ∀ (js : List Nat) (s : DState) (k : Nat), k ∉ js →
      (innerExact locked sigs i s js).recs k = s.recs k := by
  intro js
  induction js with
  | nil => intro s k _; rfl
  | cons j js ih =>
    intro s k hk
    have hkj : k ≠ j := fun h => hk (h ▸ List.mem_cons_self j js)
    have hkjs : k ∉ js := fun h => hk (List.mem_cons_of_mem j h)
    rw [innerExact]
    by_cases h1 : (s.recs j).size = -1
    · rw [if_pos h1]; exact ih s k hkjs
    · rw [if_neg h1]
      by_cases h2 : (s.recs i).size ≠ (s.recs j).size
      · rw [if_pos h2]
      · rw [if_neg h2]
        by_cases h3 : sigs i ≠ sigs j
        · rw [if_pos h3]; exact ih s k hkjs
        · rw [if_neg h3]
          by_cases h4 : (s.recs i).ext = (s.recs j).ext
          · rw [if_pos h4]
            by_cases h5 : s.fs (s.recs i).path = none
            · rw [if_pos h5]
              exact updRec_ne s.recs _ hkj
            · rw [if_neg h5]
              by_cases h6 : s.fs (s.recs j).path = none
              · rw [if_pos h6]
                rw [ih _ k hkjs]
                exact updRec_ne s.recs _ hkj
              · rw [if_neg h6]
                by_cases h7 : filecmpM s.fs (s.recs i).path (s.recs j).path = true
                · rw [if_pos h7]
                  rw [ih _ k hkjs]
                  exact updRec_ne s.recs _ hkj
                · rw [if_neg h7]; exact ih s k hkjs
          · rw [if_neg h4]; exact ih s k hkjs

/-- The filesystem only shrinks through the inner loop: a path already gone
stays gone. -/
lemma innerExact_fs_anti (locked : String → Bool)
    (sigs : Nat → Option (Content × Content)) (i : Nat) :
    ∀ (js : List Nat) (s : DState) (p : String), s.fs p = none →
      (innerExact locked sigs i s js).fs p = none := by
  intro js
  induction js with
  | nil => intro s p h; simpa [innerExact] using h
  | cons j js ih =>
    intro s p h
    rw [innerExact]
    by_cases h1 : (s.recs j).size = -1
    · rw [if_pos h1]; exact ih s p h
    · rw [if_neg h1]
      by_cases h2 : (s.recs i).size ≠ (s.recs j).size
      · rw [if_pos h2]; exact h
      · rw [if_neg h2]
        by_cases h3 : sigs i ≠ sigs j
        · rw [if_pos h3]; exact ih s p h
        · rw [if_neg h3]
          by_cases h4 : (s.recs i).ext = (s.recs j).ext
          · rw [if_pos h4]
            by_cases h5 : s.fs (s.recs i).path = none
            · rw [if_pos h5]; exact h
            · rw [if_neg h5]
              by_cases h6 : s.fs (s.recs j).path = none
              · rw [if_pos h6]; exact ih _ p h
              · rw [if_neg h6]
                by_cases h7 : filecmpM s.fs (s.recs i).path (s.recs j).path = true
                · rw [if_pos h7]
                  exact ih _ p (removeFileM_none locked s.fs _ h)
                · rw [if_neg h7]; exact ih s p h
          · rw [if_neg h4]; exact ih s p h

/-- Invariant of the exact-dedup scan relative to the initial records
`recs0`, their byte contents `contents` and the starting filesystem:
unmarked entries are untouched, and the backing file of an unmarked entry
still holds its original content. -/
def ExactInv (recs0 : Nat → FRec) (contents : Nat → Content) (n : Nat)
    (s : DState) : Prop :=
  (∀ k, k < n → ¬ markedAt s k → s.recs k = recs0 k) ∧
  (∀ k, k < n → ¬ markedAt s k → s.fs (recs0 k).path = some (contents k))

/-- Every marked entry has been physically deleted and is justified by an
earlier, still unmarked entry (a seed below the bound `b`) of the same size
and extension with byte-identical content. -/
def ExactWit (recs0 : Nat → FRec) (contents : Nat → Content) (n b : Nat)
    (s : DState) : Prop :=
  ∀ k, k < n → markedAt s k →
    s.fs (recs0 k).path = none ∧
    ∃ m, m < k ∧ m < b ∧ ¬ markedAt s m ∧
      (recs0 m).size = (recs0 k).size ∧ (recs0 m).ext = (recs0 k).ext ∧
      contents m = contents k

lemma ExactWit.mono {recs0 contents n} {b c : Nat} {s : DState} (hbc : b ≤ c)
    (h : ExactWit recs0 contents n b s) : ExactWit recs0 contents n c s := by
  intro k hk hm
  obtain ⟨hfs, m, h1, h2, h3⟩ := h k hk hm
  exact ⟨hfs, m, h1, lt_of_lt_of_le h2 hbc, h3⟩

/-- One inner pass from an unmarked seed `i` preserves the invariant, keeps
the seed unmarked, and keeps every mark justified with seeds `< i + 1`. -/
lemma innerExact_pres (recs0 : Nat → FRec) (contents : Nat → Content) (n : Nat)
    (sigs : Nat → Option (Content × Content)) (i : Nat)
    (hdist : ∀ a, a < n → ∀ b, b < n → a ≠ b → (recs0 a).path ≠ (recs0 b).path) :
    ∀ (js : List Nat) (s : DState), (∀ j ∈ js, i < j ∧ j < n) → i < n →
      ¬ markedAt s i → ExactInv recs0 contents n s →
      ExactWit recs0 contents n (i + 1) s →
      ExactInv recs0 contents n (innerExact (fun _ => false) sigs i s js) ∧
      ExactWit recs0 contents n (i + 1) (innerExact (fun _ => false) sigs i s js) ∧
      ¬ markedAt (innerExact (fun _ => false) sigs i s js) i := by
  intro js
  induction js with
  | nil => intro s _ _ hi hInv hWit; exact ⟨hInv, hWit, hi⟩
  | cons j js ih =>
    intro s hjs hin hi hInv hWit
    obtain ⟨hij, hjn⟩ := hjs j (List.mem_cons_self j js)
    have hjs2 : ∀ x ∈ js, i < x ∧ x < n := fun x hx => hjs x (List.mem_cons_of_mem j hx)
    rw [innerExact]
    by_cases h1 : (s.recs j).size = -1
    · rw [if_pos h1]; exact ih s hjs2 hin hi hInv hWit
    · rw [if_neg h1]
      by_cases h2 : (s.recs i).size ≠ (s.recs j).size
      · rw [if_pos h2]; exact ⟨hInv, hWit, hi⟩
      · rw [if_neg h2]
        by_cases h3 : sigs i ≠ sigs j
        · rw [if_pos h3]; exact ih s hjs2 hin hi hInv hWit
        · rw [if_neg h3]
          by_cases h4 : (s.recs i).ext = (s.recs j).ext
          · rw [if_pos h4]
            -- seed `i` is unmarked, so its backing file is still present:
            -- the vanished-seed branch cannot fire
            have hifs : s.fs (s.recs i).path = some (contents i) := by
              rw [hInv.1 i hin hi]; exact hInv.2 i hin hi
            have h5 : ¬ (s.fs (s.recs i).path = none) := by
              rw [hifs]; simp
            rw [if_neg h5]
            -- likewise for the unmarked candidate `j`
            have hjfs : s.fs (s.recs j).path = some (contents j) := by
              rw [hInv.1 j hjn h1]; exact hInv.2 j hjn h1
            have h6 : ¬ (s.fs (s.recs j).path = none) := by
              rw [hjfs]; simp
            rw [if_neg h6]
            by_cases h7 : filecmpM s.fs (s.recs i).path (s.recs j).path = true
            · rw [if_pos h7]
              -- contents agree
              have hceq : contents i = contents j := by
                unfold filecmpM at h7
                rw [hifs, hjfs] at h7
                simpa using h7
              -- the marked state
              set s2 : DState :=
                { s with dd := s.dd + 1,
                         fs := removeFileM (fun _ => false) s.fs (s.recs j).path,
                         recs := updRec s.recs j (markRemoved (s.recs j).path) } with hs2
              have hs2fs : s2.fs = removeFileM (fun _ => false) s.fs (s.recs j).path := by
                rw [hs2]
              have hs2recs : ∀ k, k ≠ j → s2.recs k = s.recs k := by
                intro k hk
                rw [hs2]
                exact updRec_ne s.recs _ hk
              have hs2recsj : s2.recs j = markRemoved (s.recs j).path := by
                simp [hs2]
              have hs2i : ¬ markedAt s2 i := by
                unfold markedAt
                rw [hs2recs i (Nat.ne_of_lt hij)]
                exact hi
              have hs2Inv : ExactInv recs0 contents n s2 := by
                constructor
                · intro k hk hmk
                  by_cases hkj : k = j
                  · exfalso
                    apply hmk
                    unfold markedAt
                    rw [hkj, hs2recsj]
                    rfl
                  · rw [show s2.recs k = s.recs k from hs2recs k hkj]
                    apply hInv.1 k hk
                    unfold markedAt at hmk ⊢
                    rwa [hs2recs k hkj] at hmk
                · intro k hk hmk
                  by_cases hkj : k = j
                  · exfalso
                    apply hmk
                    unfold markedAt
                    rw [hkj, hs2recsj]
                    rfl
                  · have hmk' : ¬ markedAt s k := by
                      unfold markedAt at hmk ⊢
                      rwa [hs2recs k hkj] at hmk
                    have hpne : (recs0 k).path ≠ (s.recs j).path := by
                      rw [hInv.1 j hjn h1]
                      exact hdist k hk j hjn hkj
                    rw [hs2fs, removeFileM_ne _ _ hpne]
                    exact hInv.2 k hk hmk'
              have hs2Wit : ExactWit recs0 contents n (i + 1) s2 := by
                intro k hk hmk
                by_cases hkj : k = j
                · subst hkj
                  constructor
                  · rw [hs2fs, hInv.1 k hk h1]
                    exact removeFileM_noLock_self s.fs (recs0 k).path
                  · refine ⟨i, hij, Nat.lt_succ_self i, hs2i, ?_, ?_, hceq⟩
                    · rw [← hInv.1 i hin hi, ← hInv.1 k hk h1]
                      exact not_ne_iff.mp h2
                    · rw [← hInv.1 i hin hi, ← hInv.1 k hk h1]
                      exact h4
                · have hmk' : markedAt s k := by
                    unfold markedAt at hmk ⊢
                    rwa [hs2recs k hkj] at hmk
                  obtain ⟨hfs, m, hm1, hm2, hm3, hm4⟩ := hWit k hk hmk'
                  have hmj : m ≠ j := by omega
                  refine ⟨?_, m, hm1, hm2, ?_, hm4⟩
                  · rw [hs2fs]
                    exact removeFileM_none _ s.fs _ hfs
                  · unfold markedAt
                    rw [hs2recs m hmj]
                    exact hm3
              exact ih s2 hjs2 hin hs2i hs2Inv hs2Wit
            · rw [if_neg h7]; exact ih s hjs2 hin hi hInv hWit
          · rw [if_neg h4]; exact ih s hjs2 hin hi hInv hWit

/-- The state produced by the `filecmp` match branch keeps the invariant and
does not mark anything at an index other than `j`. -/
lemma cmpStep_inv (recs0 : Nat → FRec) (contents : Nat → Content) (n : Nat)
    (hdist : ∀ a, a < n → ∀ b, b < n → a ≠ b → (recs0 a).path ≠ (recs0 b).path)
    (s : DState) (j : Nat) (hjn : j < n) (hj : ¬ markedAt s j)
    (hInv : ExactInv recs0 contents n s) :
    ExactInv recs0 contents n
      { s with dd := s.dd + 1,
               fs := removeFileM (fun _ => false) s.fs (s.recs j).path,
               recs := updRec s.recs j (markRemoved (s.recs j).path) } ∧
    ∀ k, k ≠ j → ((updRec s.recs j (markRemoved (s.recs j).path)) k).size
      = (s.recs k).size := by
  set s2 : DState :=
    { s with dd := s.dd + 1,
             fs := removeFileM (fun _ => false) s.fs (s.recs j).path,
             recs := updRec s.recs j (markRemoved (s.recs j).path) } with hs2
  have hs2fs : s2.fs = removeFileM (fun _ => false) s.fs (s.recs j).path := by
    rw [hs2]
  have hs2recs : ∀ k, k ≠ j → s2.recs k = s.recs k := by
    intro k hk
    rw [hs2]
    exact updRec_ne s.recs _ hk
  refine ⟨⟨?_, ?_⟩, fun k hk => by
    rw [show updRec s.recs j (markRemoved (s.recs j).path) k = s2.recs k from by rw [hs2],
      hs2recs k hk]⟩
  · intro k hk hmk
    by_cases hkj : k = j
    · exfalso
      apply hmk
      unfold markedAt
      rw [hkj, hs2]
      dsimp only
      rw [updRec_eq]
      rfl
    · rw [hs2recs k hkj]
      apply hInv.1 k hk
      unfold markedAt at hmk ⊢
      rwa [hs2recs k hkj] at hmk
  · intro k hk hmk
    by_cases hkj : k = j
    · exfalso
      apply hmk
      unfold markedAt
      rw [hkj, hs2]
      dsimp only
      rw [updRec_eq]
      rfl
    · have hmk2 : ¬ markedAt s k := by
        unfold markedAt at hmk ⊢
        rwa [hs2recs k hkj] at hmk
      have hpne : (recs0 k).path ≠ (s.recs j).path := by
        rw [hInv.1 j hjn hj]
        exact hdist k hk j hjn hkj
      rw [hs2fs, removeFileM_ne _ _ hpne]
      exact hInv.2 k hk hmk2

/-- If an unmarked seed `i` and an index `j` in the scanned range have equal
size, equal extension and byte-identical contents, the inner scan marks `j`:
nothing in between can `break` out (the list is sorted by size, marked
entries are skipped first, and the invariant rules out vanished files). -/
lemma innerExact_hit (recs0 : Nat → FRec) (contents : Nat → Content) (n : Nat)
    (sigs : Nat → Option (Content × Content))
    (hdist : ∀ a, a < n → ∀ b, b < n → a ≠ b → (recs0 a).path ≠ (recs0 b).path)
    (hsort : ∀ a, a < n → ∀ b, b < n → a ≤ b → (recs0 a).size ≤ (recs0 b).size)
    (hsig : ∀ a b, a < n → b < n → contents a = contents b → sigs a = sigs b)
    (i j : Nat) (hin : i < n) (hjn : j < n) (hij : i < j)
    (hsizeq : (recs0 i).size = (recs0 j).size)
    (hexteq : (recs0 i).ext = (recs0 j).ext)
    (hceq : contents i = contents j) :
    ∀ (b a : Nat) (s : DState), i < a → a ≤ j → j < a + b → a + b ≤ n →
      ¬ markedAt s i → ExactInv recs0 contents n s →
      markedAt (innerExact (fun _ => false) sigs i s (List.range' a b)) j := by
  intro b
  induction b with
  | zero => intro a s _ h1 h2 _ _ _; omega
  | succ b ih =>
    intro a s hia haj hjab habn hi hInv
    have han : a < n := by omega
    rw [List.range'_succ, innerExact]
    by_cases h1 : (s.recs a).size = -1
    · rw [if_pos h1]
      by_cases haj2 : a = j
      · exact innerExact_marked_mono _ sigs i _ s j (haj2 ▸ h1)
      · exact ih (a + 1) s (by omega) (by omega) (by omega) (by omega) hi hInv
    · rw [if_neg h1]
      -- the size guard cannot break: everything between `i` and `j` shares
      -- the seed's size because the list is sorted by size
      have hsa : s.recs a = recs0 a := hInv.1 a han h1
      have hsi : s.recs i = recs0 i := hInv.1 i hin hi
      have hsz : (recs0 a).size = (recs0 i).size := by
        have l1 := hsort i hin a han (by omega)
        have l2 := hsort a han j hjn (by omega)
        omega
      have h2 : ¬ ((s.recs i).size ≠ (s.recs a).size) := by
        rw [hsa, hsi, hsz]
        exact not_ne_iff.mpr rfl
      rw [if_neg h2]
      by_cases haj2 : a = j
      · subst haj2
        have h3 : ¬ (sigs i ≠ sigs a) :=
          not_ne_iff.mpr (hsig i a hin han hceq)
        rw [if_neg h3]
        have h4 : (s.recs i).ext = (s.recs a).ext := by
          rw [hsa, hsi]; exact hexteq
        rw [if_pos h4]
        have hifs : s.fs (s.recs i).path = some (contents i) := by
          rw [hsi]; exact hInv.2 i hin hi
        have hafs : s.fs (s.recs a).path = some (contents a) := by
          rw [hsa]; exact hInv.2 a han h1
        have h5 : ¬ (s.fs (s.recs i).path = none) := by rw [hifs]; simp
        rw [if_neg h5]
        have h6 : ¬ (s.fs (s.recs a).path = none) := by rw [hafs]; simp
        rw [if_neg h6]
        have h7 : filecmpM s.fs (s.recs i).path (s.recs a).path = true := by
          unfold filecmpM
          rw [hifs, hafs, hceq]
          simp
        rw [if_pos h7]
        refine innerExact_marked_mono _ sigs i _ _ a ?_
        show ((updRec s.recs a (markRemoved (s.recs a).path)) a).size = -1
        rw [updRec_eq]
        rfl
      · have haj3 : a < j := by omega
        by_cases h3 : sigs i ≠ sigs a
        · rw [if_pos h3]
          exact ih (a + 1) s (by omega) (by omega) (by omega) (by omega) hi hInv
        · rw [if_neg h3]
          by_cases h4 : (s.recs i).ext = (s.recs a).ext
          · rw [if_pos h4]
            have hifs : s.fs (s.recs i).path = some (contents i) := by
              rw [hsi]; exact hInv.2 i hin hi
            have hafs : s.fs (s.recs a).path = some (contents a) := by
              rw [hsa]; exact hInv.2 a han h1
            have h5 : ¬ (s.fs (s.recs i).path = none) := by rw [hifs]; simp
            rw [if_neg h5]
            have h6 : ¬ (s.fs (s.recs a).path = none) := by rw [hafs]; simp
            rw [if_neg h6]
            by_cases h7 : filecmpM s.fs (s.recs i).path (s.recs a).path = true
            · rw [if_pos h7]
              obtain ⟨hInv2, hother⟩ :=
                cmpStep_inv recs0 contents n hdist s a han h1 hInv
              have hi2 : ¬ markedAt
                  { s with dd := s.dd + 1,
                           fs := removeFileM (fun _ => false) s.fs (s.recs a).path,
                           recs := updRec s.recs a (markRemoved (s.recs a).path) } i := by
                unfold markedAt
                show ((updRec s.recs a (markRemoved (s.recs a).path)) i).size = -1 → False
                rw [hother i (by omega)]
                exact hi
              exact ih (a + 1) _ (by omega) (by omega) (by omega) (by omega) hi2 hInv2
            · rw [if_neg h7]
              exact ih (a + 1) s (by omega) (by omega) (by omega) (by omega) hi hInv
          · rw [if_neg h4]
            exact ih (a + 1) s (by omega) (by omega) (by omega) (by omega) hi hInv

/-- Marks are monotone through the outer exact-dedup loop as well. -/
lemma outerExact_marked_mono (locked : String → Bool)
    (sigs : Nat → Option (Content × Content)) (n : Nat) :
    ∀ (is : List Nat) (s : DState) (k : Nat), markedAt s k →
      markedAt (outerExact locked sigs n s is) k := by
  intro is
  induction is with
  | nil => intro s k h; simpa [outerExact] using h
  | cons i is ih =>
    intro s k h
    rw [outerExact]
    by_cases h1 : (s.recs i).size = -1
    · rw [if_pos h1]; exact ih s k h
    · rw [if_neg h1]
      exact ih _ k (innerExact_marked_mono locked sigs i _ s k h)

/-- The outer loop preserves the invariant and extends the witness bound to
`n`: every mark in the final state is justified by a still unmarked record. -/
lemma outerExact_a (recs0 : Nat → FRec) (contents : Nat → Content) (n : Nat)
    (sigs : Nat → Option (Content × Content))
    (hdist : ∀ a, a < n → ∀ b, b < n → a ≠ b → (recs0 a).path ≠ (recs0 b).path) :
    ∀ (c i0 : Nat) (s : DState), i0 + c = n →
      ExactInv recs0 contents n s → ExactWit recs0 contents n i0 s →
      ExactInv recs0 contents n
        (outerExact (fun _ => false) sigs n s (List.range' i0 c)) ∧
      ExactWit recs0 contents n n
        (outerExact (fun _ => false) sigs n s (List.range' i0 c)) := by
  intro c
  induction c with
  | zero =>
    intro i0 s hc hInv hWit
    have : i0 = n := by omega
    subst this
    exact ⟨hInv, hWit⟩
  | succ c ih =>
    intro i0 s hc hInv hWit
    rw [List.range'_succ, outerExact]
    by_cases h1 : (s.recs i0).size = -1
    · rw [if_pos h1]
      exact ih (i0 + 1) s (by omega) hInv (hWit.mono (Nat.le_succ i0))
    · rw [if_neg h1]
      have hmem : ∀ j ∈ List.range' (i0 + 1) (n - (i0 + 1)), i0 < j ∧ j < n := by
        intro j hj
        have := List.mem_range'_1.mp hj
        omega
    
      obtain ⟨hInv1, hWit1, _⟩ :=
        innerExact_pres recs0 contents n sigs i0 hdist
          (List.range' (i0 + 1) (n - (i0 + 1))) s hmem (by omega) h1 hInv
          (hWit.mono (Nat.le_succ i0))
      exact ih (i0 + 1) _ (by omega) hInv1 (hWit1.mono (by omega))

/-- After the outer loop, two surviving records in the same size/extension
bucket cannot have byte-identical contents: when the earlier one was the
seed, the inner scan would have marked the later one. -/
lemma outerExact_b (recs0 : Nat → FRec) (contents : Nat → Content) (n : Nat)
    (sigs : Nat → Option (Content × Content))
    (hdist : ∀ a, a < n → ∀ b, b < n → a ≠ b → (recs0 a).path ≠ (recs0 b).path)
    (hsort : ∀ a, a < n → ∀ b, b < n → a ≤ b → (recs0 a).size ≤ (recs0 b).size)
    (hsig : ∀ a b, a < n → b < n → contents a = contents b → sigs a = sigs b) :
    ∀ (c i0 : Nat) (s : DState), i0 + c = n →
      ExactInv recs0 contents n s → ExactWit recs0 contents n i0 s →
      ∀ i j, i0 ≤ i → i < j → j < n →
        (recs0 i).size = (recs0 j).size → (recs0 i).ext = (recs0 j).ext →
        contents i = contents j →
        ¬ markedAt (outerExact (fun _ => false) sigs n s (List.range' i0 c)) i →
        markedAt (outerExact (fun _ => false) sigs n s (List.range' i0 c)) j := by
  intro c
  induction c with
  | zero => intro i0 s hc _ _ i j h1 h2 h3 _ _ _ _; omega
  | succ c ih =>
    intro i0 s hc hInv hWit i j hi0 hij hjn hsz hext hcnt humi
    rw [List.range'_succ, outerExact] at humi ⊢
    by_cases h1 : (s.recs i0).size = -1
    · rw [if_pos h1] at humi ⊢
      by_cases hii0 : i = i0
      · exact absurd (outerExact_marked_mono _ sigs n _ s i (hii0 ▸ h1)) humi
      · exact ih (i0 + 1) s (by omega) hInv (hWit.mono (Nat.le_succ i0))
          i j (by omega) hij hjn hsz hext hcnt humi
    · rw [if_neg h1] at humi ⊢
      have hmem : ∀ x ∈ List.range' (i0 + 1) (n - (i0 + 1)), i0 < x ∧ x < n := by
        intro x hx
        have := List.mem_range'_1.mp hx
        omega
      obtain ⟨hInv1, hWit1, _⟩ :=
        innerExact_pres recs0 contents n sigs i0 hdist
          (List.range' (i0 + 1) (n - (i0 + 1))) s hmem (by omega) h1 hInv
          (hWit.mono (Nat.le_succ i0))
      by_cases hii0 : i = i0
      · subst hii0
        have hhit :=
          innerExact_hit recs0 contents n sigs hdist hsort hsig i j (by omega) hjn hij
            hsz hext hcnt (n - (i + 1)) (i + 1) s (by omega) (by omega) (by omega)
            (by omega) h1 hInv
        exact outerExact_marked_mono _ sigs n _ _ j hhit
      · exact ih (i0 + 1)
          { innerExact (fun _ => false) sigs i0 s (List.range' (i0 + 1) (n - (i0 + 1))) with
            done := (innerExact (fun _ => false) sigs i0 s
              (List.range' (i0 + 1) (n - (i0 + 1)))).done + 1 }
          (by omega) hInv1 (hWit1.mono (by omega))
          i j (by omega) hij hjn hsz hext hcnt humi

/-- **C1.** Exact deduplication, over a static filesystem consistent with the
sorted record list: (a) a record is marked removed only together with the
physical deletion of its file and only because a full byte-for-byte
comparison found it identical to an earlier, still surviving record of equal
size and equal extension key (head/tail signatures alone never cause a
removal); (b) after the phase no two surviving records in the same
`(size, extensionKey)` bucket have byte-identical contents. -/
theorem exactDedup_exact_and_complete
    (recs0 : Nat → FRec) (contents : Nat → Content) (fs0 : FS) (n : Nat)
    (hcons : ∀ k, k < n → fs0 (recs0 k).path = some (contents k))
    (hsize : ∀ k, k < n → (recs0 k).size = ((contents k).length : Int))
    (hdist : ∀ a, a < n → ∀ b, b < n → a ≠ b → (recs0 a).path ≠ (recs0 b).path)
    (hsort : ∀ a, a < n → ∀ b, b < n → a ≤ b → (recs0 a).size ≤ (recs0 b).size) :
    (∀ j, j < n → markedAt (exactDedupPhase (fun _ => false) recs0 n fs0) j →
      (exactDedupPhase (fun _ => false) recs0 n fs0).fs (recs0 j).path = none ∧
      ∃ m, m < j ∧ ¬ markedAt (exactDedupPhase (fun _ => false) recs0 n fs0) m ∧
        (recs0 m).size = (recs0 j).size ∧ (recs0 m).ext = (recs0 j).ext ∧
        contents m = contents j) ∧
    (∀ i j, i < j → j < n →
      ¬ markedAt (exactDedupPhase (fun _ => false) recs0 n fs0) i →
      ¬ markedAt (exactDedupPhase (fun _ => false) recs0 n fs0) j →
      (recs0 i).size = (recs0 j).size → (recs0 i).ext = (recs0 j).ext →
      contents i ≠ contents j) := by
  have hsig : ∀ a b, a < n → b < n → contents a = contents b →
      sigOf fs0 (recs0 a).path = sigOf fs0 (recs0 b).path := by
    intro a b ha hb hab
    unfold sigOf
    rw [hcons a ha, hcons b hb, hab]
  have hInv0 : ExactInv recs0 contents n ⟨recs0, fs0, 0, 0⟩ :=
    ⟨fun _ _ _ => rfl, fun k hk _ => hcons k hk⟩
  have hWit0 : ExactWit recs0 contents n 0 ⟨recs0, fs0, 0, 0⟩ := by
    intro k hk hm
    exfalso
    have h1 := hsize k hk
    have h2 : (recs0 k).size = -1 := hm
    rw [h1] at h2
    omega
  have hphase : exactDedupPhase (fun _ => false) recs0 n fs0
      = outerExact (fun _ => false) (fun k => sigOf fs0 (recs0 k).path) n
          ⟨recs0, fs0, 0, 0⟩ (List.range' 0 n) := rfl
  obtain ⟨hInvF, hWitF⟩ :=
    outerExact_a recs0 contents n (fun k => sigOf fs0 (recs0 k).path) hdist
      n 0 ⟨recs0, fs0, 0, 0⟩ (by omega) hInv0 hWit0
  constructor
  · intro j hj hm
    rw [hphase] at hm ⊢
    obtain ⟨hfs, m, hm1, _, hm3, hm4, hm5, hm6⟩ := hWitF j hj hm
    exact ⟨hfs, m, hm1, hm3, hm4, hm5, hm6⟩
  · intro i j hij hjn hui huj hsz hext hcnt
    rw [hphase] at hui huj
    exact huj (outerExact_b recs0 contents n (fun k => sigOf fs0 (recs0 k).path)
      hdist hsort hsig n 0 ⟨recs0, fs0, 0, 0⟩ (by omega) hInv0 hWit0
      i j (Nat.zero_le i) hij hjn hsz hext hcnt hui)

/-- Two byte-identical records of the same size and extension over a
consistent two-file filesystem: concrete input for the exact-dedup theorem. -/
def c1recs : Nat → FRec :=
  fun k => if k = 0 then ⟨4, some ".x", "a"⟩ else ⟨4, some ".x", "b"⟩

def c1contents : Nat → Content := fun _ => [1, 2, 3, 4]

def c1fs : FS := fun p => if p = "a" ∨ p = "b" then some [1, 2, 3, 4] else none

/-- Witness for `exactDedup_exact_and_complete`: the hypotheses are
satisfiable (two identical 4-byte files in the same bucket). -/
theorem exactDedup_exact_and_complete_witness :
    (∀ j, j < 2 → markedAt (exactDedupPhase (fun _ => false) c1recs 2 c1fs) j →
      (exactDedupPhase (fun _ => false) c1recs 2 c1fs).fs (c1recs j).path = none ∧
      ∃ m, m < j ∧ ¬ markedAt (exactDedupPhase (fun _ => false) c1recs 2 c1fs) m ∧
        (c1recs m).size = (c1recs j).size ∧ (c1recs m).ext = (c1recs j).ext ∧
        c1contents m = c1contents j) ∧
    (∀ i j, i < j → j < 2 →
      ¬ markedAt (exactDedupPhase (fun _ => false) c1recs 2 c1fs) i →
      ¬ markedAt (exactDedupPhase (fun _ => false) c1recs 2 c1fs) j →
      (c1recs i).size = (c1recs j).size → (c1recs i).ext = (c1recs j).ext →
      c1contents i ≠ c1contents j) :=
  exactDedup_exact_and_complete c1recs c1contents c1fs 2
    (by decide) (by decide) (by decide) (by decide)

/-! ## Vanished files and permission errors in the exact-dedup scan -/

/-- Records for a two-file bucket whose seed file vanishes after signature
precomputation: equal sizes, equal extensions. -/
def c8recs : Nat → FRec :=
  fun k => if k = 0 then ⟨4, some ".x", "p"⟩ else ⟨4, some ".x", "q"⟩

/-- Filesystem at scan time: the seed's file `p` is already gone, `q` is
still present. -/
def c8fs : FS := fun p => if p = "q" then some [1, 2, 3, 4] else none

/-- Signatures precomputed while both files were still readable. -/
def c8sigs : Nat → Option (Content × Content) :=
  fun _ => some ([1, 2, 3, 4], [1, 2, 3, 4])

/-- **C8.** When the seed's backing file has vanished mid-scan, the code takes
the branch `files[j] = (-1, r'/', files[i][2])` (src line 1075): it is the
*still-present* record `j` that gets marked removed — and its slot even
receives the seed's path — while the file `q` remains on disk.  This
contradicts the spec's `reseed from the next surviving record` with `j`'s
record left intact. -/
theorem exactDedup_vanishedSeed_marks_present_record :
    markedAt (exactDedupLoop (fun _ => false) c8recs 2 c8sigs c8fs) 1 ∧
    (exactDedupLoop (fun _ => false) c8recs 2 c8sigs c8fs).recs 1 = markRemoved "p" ∧
    (exactDedupLoop (fun _ => false) c8recs 2 c8sigs c8fs).fs "q" = some [1, 2, 3, 4] := by
  refine ⟨?_, by decide, by decide⟩
  show _ = (-1 : Int)
  decide

/-- A locked (permission-denied) path survives `removeFile` no matter which
file the inner loop is deleting. -/
lemma removeFileM_locked (locked : String → Bool) (fs : FS) (q : String)
    {p : String} (h : locked p = true) : removeFileM locked fs q p = fs p := by
  unfold removeFileM
  split
  · rfl
  · next hq =>
    have hpq : p ≠ q := fun hcontra => by
      rw [hcontra] at h
      rw [h] at hq
      exact hq rfl
    simp [hpq]

/-- A locked path is untouched by the whole inner scan. -/
lemma innerExact_fs_locked (locked : String → Bool)
    (sigs : Nat → Option (Content × Content)) (i : Nat) :
    ∀ (js : List Nat) (s : DState) (p : String), locked p = true →
      (innerExact locked sigs i s js).fs p = s.fs p := by
  intro js
  induction js with
  | nil => intro s p _; rfl
  | cons j js ih =>
    intro s p h
    rw [innerExact]
    by_cases h1 : (s.recs j).size = -1
    · rw [if_pos h1]; exact ih s p h
    · rw [if_neg h1]
      by_cases h2 : (s.recs i).size ≠ (s.recs j).size
      · rw [if_pos h2]
      · rw [if_neg h2]
        by_cases h3 : sigs i ≠ sigs j
        · rw [if_pos h3]; exact ih s p h
        · rw [if_neg h3]
          by_cases h4 : (s.recs i).ext = (s.recs j).ext
          · rw [if_pos h4]
            by_cases h5 : s.fs (s.recs i).path = none
            · rw [if_pos h5]
            · rw [if_neg h5]
              by_cases h6 : s.fs (s.recs j).path = none
              · rw [if_pos h6]; exact ih _ p h
              · rw [if_neg h6]
                by_cases h7 : filecmpM s.fs (s.recs i).path (s.recs j).path = true
                · rw [if_pos h7, ih _ p h]
                  exact removeFileM_locked locked s.fs _ h
                · rw [if_neg h7]; exact ih s p h
          · rw [if_neg h4]; exact ih s p h

/-- A locked path is untouched by the whole exact-dedup scan. -/
lemma outerExact_fs_locked (locked : String → Bool)
    (sigs : Nat → Option (Content × Content)) (n : Nat) :
    ∀ (is : List Nat) (s : DState) (p : String), locked p = true →
      (outerExact locked sigs n s is).fs p = s.fs p := by
  intro is
  induction is with
  | nil => intro s p _; rfl
  | cons i is ih =>
    intro s p h
    rw [outerExact]
    by_cases h1 : (s.recs i).size = -1
    · rw [if_pos h1]; exact ih s p h
    · rw [if_neg h1]
      rw [ih _ p h]
      exact innerExact_fs_locked locked sigs i _ s p h

/-- **C10.** `removeFile` swallows `PermissionError`, so (first conjunct) a
permission-locked path is never erased by the exact-dedup scan; and (second
conjunct, a three-file bucket with identical contents where deleting the
second file is denied) the undeletable duplicate is nonetheless marked
removed, counted in `actuallyDeduped`, and skipped as a seed afterwards,
while its file is still on disk: the reported count 2 exceeds the single
actual deletion, so the count is only an upper bound. -/
theorem exactDedup_permissionError_bookkeeping :
    (∀ (locked : String → Bool) (recs : Nat → FRec) (n : Nat)
       (sigs : Nat → Option (Content × Content)) (fs : FS) (p : String),
       locked p = true → (exactDedupLoop locked recs n sigs fs).fs p = fs p) ∧
    (∀ (c : Content) (e : Option String) (p1 p2 p3 : String),
       p1 ≠ p2 → p1 ≠ p3 → p2 ≠ p3 →
       markedAt (exactDedupPhase (fun q => q = p2)
         (fun k => if k = 0 then ⟨(c.length : Int), e, p1⟩
                   else if k = 1 then ⟨(c.length : Int), e, p2⟩
                   else ⟨(c.length : Int), e, p3⟩) 3
         (fun q => if q = p1 ∨ q = p2 ∨ q = p3 then some c else none)) 1 ∧
       markedAt (exactDedupPhase (fun q => q = p2)
         (fun k => if k = 0 then ⟨(c.length : Int), e, p1⟩
                   else if k = 1 then ⟨(c.length : Int), e, p2⟩
                   else ⟨(c.length : Int), e, p3⟩) 3
         (fun q => if q = p1 ∨ q = p2 ∨ q = p3 then some c else none)) 2 ∧
       (exactDedupPhase (fun q => q = p2)
         (fun k => if k = 0 then ⟨(c.length : Int), e, p1⟩
                   else if k = 1 then ⟨(c.length : Int), e, p2⟩
                   else ⟨(c.length : Int), e, p3⟩) 3
         (fun q => if q = p1 ∨ q = p2 ∨ q = p3 then some c else none)).dd = 2 ∧
       (exactDedupPhase (fun q => q = p2)
         (fun k => if k = 0 then ⟨(c.length : Int), e, p1⟩
                   else if k = 1 then ⟨(c.length : Int), e, p2⟩
                   else ⟨(c.length : Int), e, p3⟩) 3
         (fun q => if q = p1 ∨ q = p2 ∨ q = p3 then some c else none)).fs p2 = some c ∧
       (exactDedupPhase (fun q => q = p2)
         (fun k => if k = 0 then ⟨(c.length : Int), e, p1⟩
                   else if k = 1 then ⟨(c.length : Int), e, p2⟩
                   else ⟨(c.length : Int), e, p3⟩) 3
         (fun q => if q = p1 ∨ q = p2 ∨ q = p3 then some c else none)).fs p3 = none ∧
       (exactDedupPhase (fun q => q = p2)
         (fun k => if k = 0 then ⟨(c.length : Int), e, p1⟩
                   else if k = 1 then ⟨(c.length : Int), e, p2⟩
                   else ⟨(c.length : Int), e, p3⟩) 3
         (fun q => if q = p1 ∨ q = p2 ∨ q = p3 then some c else none)).fs p1 = some c) := by
  constructor
  · intro locked recs n sigs fs p h
    exact outerExact_fs_locked locked sigs n (List.range' 0 n) ⟨recs, fs, 0, 0⟩ p h
  · intro c e p1 p2 p3 h12 h13 h23
    have h21 : ¬ (p2 = p1) := Ne.symm h12
    have h31 : ¬ (p3 = p1) := Ne.symm h13
    have h32 : ¬ (p3 = p2) := Ne.symm h23
    have hsz : ¬ ((c.length : Int) = -1) := by omega
    refine ⟨?_, ?_, ?_, ?_, ?_, ?_⟩ <;>
    · simp only [exactDedupPhase, exactDedupLoop]
      norm_num [List.range', outerExact, innerExact, markedAt, updRec, markRemoved,
        sigOf, filecmpM, removeFileM, h21, h31, h32, h12, h13, h23, hsz,
        Option.some_ne_none, Option.some.injEq, reduceCtorEq]

/-- Witness for `exactDedup_permissionError_bookkeeping` at a concrete
three-file bucket. -/
theorem exactDedup_permissionError_bookkeeping_witness :
    markedAt (exactDedupPhase (fun q => q = "b")
      (fun k => if k = 0 then ⟨(([2, 2] : Content).length : Int), none, "a"⟩
                else if k = 1 then ⟨(([2, 2] : Content).length : Int), none, "b"⟩
                else ⟨(([2, 2] : Content).length : Int), none, "c"⟩) 3
      (fun q => if q = "a" ∨ q = "b" ∨ q = "c" then some [2, 2] else none)) 1 ∧
    (exactDedupPhase (fun q => q = "b")
      (fun k => if k = 0 then ⟨(([2, 2] : Content).length : Int), none, "a"⟩
                else if k = 1 then ⟨(([2, 2] : Content).length : Int), none, "b"⟩
                else ⟨(([2, 2] : Content).length : Int), none, "c"⟩) 3
      (fun q => if q = "a" ∨ q = "b" ∨ q = "c" then some [2, 2] else none)).fs "b"
      = some [2, 2] := by
  obtain ⟨h1, _, _, h4, _, _⟩ :=
    exactDedup_permissionError_bookkeeping.2 [2, 2] none "a" "b" "c"
      (by decide) (by decide) (by decide)
  exact ⟨h1, h4⟩

/-- **C6.** The average-color pre-filter never rejects on the blue channel
alone: the pair `(0,0,0)` vs `(0,0,200)` (blue differs by 200 while red and
green match) passes the filter, and it passes for *every* blue delta,
because `abs(RGB1[2] - RGB2[2]) >= 10` was written inside the tuple, making
the blue entry a boolean. -/
theorem similarEnoughRGBColors_blue_never_rejects :
    similarEnoughRGBColors (some (0, 0, 0)) (some (0, 0, 200)) = true ∧
    ∀ dB : Int, similarEnoughRGBColors (some (0, 0, 0)) (some (0, 0, dB)) = true := by
  refine ⟨by decide, ?_⟩
  intro dB
  simp only [similarEnoughRGBColors]
  by_cases h : (10 : Int) ≤ |0 - dB|
  · rw [if_pos h]
    norm_num
  · rw [if_neg h]
    norm_num

/-! ## Order of the program's phases -/

/-- The top-level steps of the script, in source order. -/
inductive Phase
  | listFiles
  | removeEmptyFiles
  | exactDedup
  | analysis
  | junkByExtension
  | textDedup
  | visualDedup
  | organize
deriving DecidableEq, Repr

/-- The command-line switches that gate whole phases
(src lines 977-990 and 1341). -/
structure CliOptions where
  removeDuplicates : Bool
  keepEmptyFiles : Bool
  skipAnalysis : Bool
  junkByExtension : Bool
  deepDedupTxts : Bool
  visuallyDedupImages : Bool
  keepDirStructure : Bool
deriving DecidableEq

/-- The straight-line control flow of the script: each phase runs to
completion before the next starts, in the textual order of the source —
empty-file removal (line 1029), exact dedup (line 1050), analysis
(line 1097), junk-by-extension (line 1341), *text dedup* (line 1364),
*visual dedup* (line 1413), organizing (line 1470). -/
def programPhases (o : CliOptions) : List Phase :=
  [Phase.listFiles]
  ++ (if o.keepEmptyFiles then [] else [Phase.removeEmptyFiles])
  ++ (if o.removeDuplicates then [Phase.exactDedup] else [])
  ++ (if o.skipAnalysis then [] else [Phase.analysis])
  ++ (if o.junkByExtension then [Phase.junkByExtension] else [])
  ++ (if o.deepDedupTxts then [Phase.textDedup] else [])
  ++ (if o.visuallyDedupImages then [Phase.visualDedup] else [])
  ++ (if o.keepDirStructure then [] else [Phase.organize])

/-- A run with every deduplication phase enabled. -/
def allDedupOn : CliOptions :=
  { removeDuplicates := true, keepEmptyFiles := false, skipAnalysis := false,
    junkByExtension := false, deepDedupTxts := true, visuallyDedupImages := true,
    keepDirStructure := false }

/-- **C2, counterexample.** With all dedup phases enabled the phases are
sequential, but the text-dedup phase runs *before* the visual-dedup phase,
so the claimed ordering (perceptual before text) is false. -/
theorem phaseOrder_text_before_visual :
    List.indexOf Phase.exactDedup (programPhases allDedupOn)
      < List.indexOf Phase.textDedup (programPhases allDedupOn) ∧
    List.indexOf Phase.textDedup (programPhases allDedupOn)
      < List.indexOf Phase.visualDedup (programPhases allDedupOn) ∧
    ¬ (List.indexOf Phase.visualDedup (programPhases allDedupOn)
      < List.indexOf Phase.textDedup (programPhases allDedupOn)) := by
  decide

/-- **C2, amended.** For every option combination in which all three dedup
phases are enabled, the phases run strictly sequentially in the order
exact dedup, then normalized-text dedup, then perceptual image dedup. -/
theorem phaseOrder_exact_then_text_then_visual (o : CliOptions)
    (h1 : o.removeDuplicates = true) (h2 : o.deepDedupTxts = true)
    (h3 : o.visuallyDedupImages = true) :
    List.indexOf Phase.exactDedup (programPhases o)
      < List.indexOf Phase.textDedup (programPhases o) ∧
    List.indexOf Phase.textDedup (programPhases o)
      < List.indexOf Phase.visualDedup (programPhases o) := by
  obtain ⟨a, b, c, d, e, f, g⟩ := o
  revert a b c d e f g
  decide

/-- Witness for `phaseOrder_exact_then_text_then_visual`. -/
theorem phaseOrder_exact_then_text_then_visual_witness :
    List.indexOf Phase.exactDedup (programPhases allDedupOn)
      < List.indexOf Phase.visualDedup (programPhases allDedupOn) :=
  lt_trans (phaseOrder_exact_then_text_then_visual allDedupOn rfl rfl rfl).1
    (phaseOrder_exact_then_text_then_visual allDedupOn rfl rfl rfl).2

/-! ## The perceptual image deduplicator: data model and sorting -/

/-- A decoded PIL image: mode string (`"RGB"`, `"RGBA"`, `"L"`, ...), size
`(width, height)` and pixel data (`getdata()`), one channel list per pixel
(a single-channel pixel is a one-element list, standing for Python's bare
int, which fails the `isinstance(..., tuple)` checks just as a length-1 list
fails the length checks). -/
structure Img where
  mode : String
  size : Int × Int
  data : List (List Int)
deriving DecidableEq, Repr

/-- An entry of the `files` list during visual dedup: the 4-tuple
`(orientationKey, (width, height), averageColor, path)` produced by
`imageWithInfo` (src lines 738-744) and mutated by the scan loop. -/
structure ImageRec where
  okey : Int
  dims : Int × Int
  avg : Option (Int × Int × Int)
  path : Option String
deriving DecidableEq, Repr

/-- `imageWithInfo` (src lines 738-744) with `Image.open` abstracted into a
`decode` oracle (a failing decode raises, giving the sentinel tuple
`(0, (-999, -999), (999, 999, 999), None)`).  `convert('RGB')` preserves
`.size`, the only field read.  `int((w/h)*1000)` on positive dimensions is
floor division; in the portrait branch Python truncates the negative float
toward zero, i.e. negates the floor of the positive ratio. -/
def imageWithInfo (decode : String → Option Img) (imagePath : String) : ImageRec :=
  match decode imagePath with
  | none => ⟨0, (-999, -999), some (999, 999, 999), none⟩
  | some image =>
    if image.size.1 ≥ image.size.2 then
      ⟨image.size.1 * 1000 / image.size.2, image.size, none, some imagePath⟩
    else
      ⟨-(image.size.2 * 1000 / image.size.1), image.size, none, some imagePath⟩

/-- The Python tuple order on `imageWithInfo` records, via an embedding into
a lexicographic product: `orientationKey`, then `(width, height)`
lexicographically, then `averageColor`, then `path`.  (Python raises on an
order comparison between `None` and a tuple/str; that comparison is
unreachable for records produced by `imageWithInfo`, whose sentinels are
separated already by `orientationKey = 0`; the embedding puts `none` first.) -/
def imageRecKey (a : ImageRec) :
    Lex (Int × Lex ((Lex (Int × Int)) ×
      Lex ((WithBot (Lex (Int × Lex (Int × Int)))) × WithBot String))) :=
  toLex (a.okey, toLex (toLex a.dims,
    toLex ((a.avg.map (fun c => toLex (c.1, toLex (c.2.1, c.2.2))) : WithBot _),
      (a.path : WithBot String))))

/-- `a <= b` in Python's tuple order. -/
def imageRecLe (a b : ImageRec) : Prop := imageRecKey a ≤ imageRecKey b

instance : DecidableRel imageRecLe := by
  unfold imageRecLe; infer_instance

instance : IsTotal ImageRec imageRecLe :=
  ⟨fun a b => le_total (imageRecKey a) (imageRecKey b)⟩

instance : IsTrans ImageRec imageRecLe :=
  ⟨fun _ _ _ h1 h2 => le_trans h1 h2⟩

/-- Python's `sorted`: a stable sort.  For a total preorder the stable sort
is unique, and insertion sort that inserts each element before its first
`le`-successor computes it. -/
def pySorted {α : Type} (le : α → α → Prop) [DecidableRel le] (l : List α) : List α :=
  List.insertionSort le l

/-- The double sort of src line 1433:
`sorted(sorted(files, key=lambda f: (f[1][0] + f[1][1]), reverse=True))` —
the inner stable sort is descending by `width + height`, the outer sort is a
plain ascending sort by the whole tuple. -/
def imageDoubleSort (l : List ImageRec) : List ImageRec :=
  pySorted imageRecLe
    (pySorted (fun a b => b.dims.1 + b.dims.2 ≤ a.dims.1 + a.dims.2) l)

/-- The ordering claimed for the candidate list: `orientationKey`
descending, and `width + height` descending among records of equal
`orientationKey`. -/
def claimedImageOrder (x y : ImageRec) : Prop :=
  y.okey < x.okey ∨ (x.okey = y.okey ∧ y.dims.1 + y.dims.2 ≤ x.dims.1 + x.dims.2)

instance : DecidableRel claimedImageOrder := by
  unfold claimedImageOrder; infer_instance

/-- Decode oracle for three images of sizes 2x1, 4x2 and 1x1. -/
def c4decode : String → Option Img :=
  fun p =>
    if p = "a" then some ⟨"RGB", (2, 1), [[0, 0, 0]]⟩
    else if p = "b" then some ⟨"RGB", (4, 2), [[0, 0, 0]]⟩
    else if p = "c" then some ⟨"RGB", (1, 1), [[0, 0, 0]]⟩
    else none

/-- **C4, counterexample.** Sorting the records of the images
`a` (2x1), `c` (1x1), `b` (4x2) produces `[c, a, b]`: `orientationKey`
*ascending* (1000 before 2000), and among the two records with equal
`orientationKey` 2000 the earlier one has the *smaller* width+height
(3 before 6) — the claimed descending order fails on both counts. -/
theorem imageDoubleSort_not_descending :
    imageDoubleSort
        [imageWithInfo c4decode "a", imageWithInfo c4decode "c",
         imageWithInfo c4decode "b"]
      = [⟨1000, (1, 1), none, some "c"⟩, ⟨2000, (2, 1), none, some "a"⟩,
         ⟨2000, (4, 2), none, some "b"⟩] ∧
    ¬ List.Pairwise claimedImageOrder
        (imageDoubleSort
          [imageWithInfo c4decode "a", imageWithInfo c4decode "c",
           imageWithInfo c4decode "b"]) := by
  constructor
  · decide
  · decide

/-- **C4, amended.** The candidate list that reaches the perceptual scan is
sorted *ascending* in the Python tuple order — `orientationKey` ascending,
then `(width, height)` lexicographically ascending, then color, then path:
the outer plain `sorted` of src line 1433 overrides the inner
width+height-descending sort, which survives only as an (irrelevant)
pre-permutation.  The result is a permutation of the input records. -/
theorem imageDoubleSort_sorted_ascending (l : List ImageRec) :
    List.Sorted imageRecLe (imageDoubleSort l) ∧ (imageDoubleSort l).Perm l := by
  constructor
  · exact List.sorted_insertionSort imageRecLe _
  · exact (List.perm_insertionSort imageRecLe _).trans
      (List.perm_insertionSort _ l)

/-! ## Exact-rational model of the float arithmetic in the image comparisons

Python computes the ratio and mean comparisons in IEEE floats.  We model
them as exact rationals, represented as unnormalized `num/den` pairs with a
positive denominator (normalization is irrelevant for comparisons and keeps
every operation kernel-computable).  The concrete inputs used in the
theorems stay away from float representation boundaries, where the exact
and the float computation agree. -/

structure Frac where
  num : Int
  den : Int
deriving DecidableEq, Repr

def fOfInt (n : Int) : Frac := ⟨n, 1⟩

def fAdd (a b : Frac) : Frac := ⟨a.num * b.den + b.num * a.den, a.den * b.den⟩

def fSub (a b : Frac) : Frac := ⟨a.num * b.den - b.num * a.den, a.den * b.den⟩

def fMul (a b : Frac) : Frac := ⟨a.num * b.num, a.den * b.den⟩

/-- Division, keeping the denominator positive (all divisors in the modelled
code are positive). -/
def fDiv (a b : Frac) : Frac :=
  if b.num < 0 then ⟨-(a.num * b.den), -(a.den * b.num)⟩
  else ⟨a.num * b.den, a.den * b.num⟩

def fLt (a b : Frac) : Bool := a.num * b.den < b.num * a.den

def fLe (a b : Frac) : Bool := a.num * b.den ≤ b.num * a.den

def fAbs (a : Frac) : Frac := ⟨|a.num|, |a.den|⟩

def fMin (a b : Frac) : Frac := if fLe a b then a else b

def fMax (a b : Frac) : Frac := if fLe a b then b else a

/-- `math.floor` on an exact rational (positive denominator). -/
def fFloor (a : Frac) : Int := Int.fdiv a.num a.den

/-- Python's `round(x)`: round half to even. -/
def pyRound0 (q : Frac) : Int :=
  let f := fFloor q
  let r := fSub q (fOfInt f)
  if fLt r ⟨1, 2⟩ then f
  else if fLt ⟨1, 2⟩ r then f + 1
  else if f % 2 = 0 then f else f + 1

/-- Python's `round(x, 2)`. -/
def pyRound2 (q : Frac) : Frac := fDiv (fOfInt (pyRound0 (fMul q (fOfInt 100)))) (fOfInt 100)

/-- `sameRatio` (src lines 746-761): near-square images are compared through
the fixed ratio 1, landscape and portrait images through their rounded
long/short-side ratios; orientation classes never mix. -/
def sameRatio (A B : Int × Int) : Bool :=
  let Aw := A.1
  let Ah := A.2
  let Bw := B.1
  let Bh := B.2
  if fLt (fOfInt |Ah - Aw|) (fMul (fDiv (fOfInt (Ah + Aw)) (fOfInt 2)) ⟨1, 100⟩) then
    if fLt (fMul (fDiv (fOfInt (Bh + Bw)) (fOfInt 2)) ⟨1, 100⟩) (fOfInt |Bh - Bw|) then
      false
    else
      fLe (pyRound2 (fAbs (fSub (fOfInt 1)
        (pyRound2 (fDiv (fOfInt (max Bh Bw)) (fOfInt (min Bh Bw))))))) ⟨1, 100⟩
  else if Ah < Aw then
    if ¬ (Bh < Bw) then false
    else
      fLe (pyRound2 (fAbs (fSub (pyRound2 (fDiv (fOfInt Aw) (fOfInt Ah)))
        (pyRound2 (fDiv (fOfInt Bw) (fOfInt Bh)))))) ⟨1, 100⟩
  else
    if ¬ (Bw < Bh) then false
    else
      fLe (pyRound2 (fAbs (fSub (pyRound2 (fDiv (fOfInt Ah) (fOfInt Aw)))
        (pyRound2 (fDiv (fOfInt Bh) (fOfInt Bw)))))) ⟨1, 100⟩

/-- `averageRGB` (src lines 719-729).  The `image.convert(...)` call on
line 721 discards its result (a no-op), so the data is inspected as-is: if
the first pixel is not a 3-channel tuple the function returns `None` (in
particular for RGBA images, whose pixels are 4-tuples).  The per-channel
means are `round`ed half-to-even. -/
def averageRGB (image : Img) : Option (Int × Int × Int) :=
  match image.data with
  | [] => none
  | p0 :: _ =>
    if p0.length = 3 then
      let n : Int := image.data.length
      let sR : Int := (image.data.map (fun px => px.getD 0 0)).sum
      let sG : Int := (image.data.map (fun px => px.getD 1 0)).sum
      let sB : Int := (image.data.map (fun px => px.getD 2 0)).sum
      some (pyRound0 (fDiv (fOfInt sR) (fOfInt n)),
            pyRound0 (fDiv (fOfInt sG) (fOfInt n)),
            pyRound0 (fDiv (fOfInt sB) (fOfInt n)))
    else none

/-- Mean absolute per-channel difference of two 3-channel images, compared
against the resizing-scaled tolerance `5 + (min(resizing, 10) // 2)`
(src lines 763-772).  Pixels are walked in lockstep (the call sites have
equalized the pixel counts). -/
def similarEnoughImages (imageA imageB : Img) (resizing : Frac) : Bool :=
  match imageA.data, imageB.data with
  | a0 :: _, b0 :: _ =>
    if a0.length = 3 ∧ b0.length = 3 then
      let diff := ((imageA.data.zip imageB.data).map
        (fun pp => [|pp.1.getD 0 0 - pp.2.getD 0 0|, |pp.1.getD 1 0 - pp.2.getD 1 0|,
                    |pp.1.getD 2 0 - pp.2.getD 2 0|])).flatten
      fLt (fDiv (fOfInt diff.sum) (fOfInt diff.length))
        (fOfInt (5 + fFloor (fDiv (fMin resizing (fOfInt 10)) (fOfInt 2))))
    else false
  | _, _ => false

/-- The 4-channel variant (src lines 774-784). -/
def similarEnoughImagesWithAlpha (imageA imageB : Img) (resizing : Frac) : Bool :=
  match imageA.data, imageB.data with
  | a0 :: _, b0 :: _ =>
    if a0.length = 4 ∧ b0.length = 4 then
      let diff := ((imageA.data.zip imageB.data).map
        (fun pp => [|pp.1.getD 0 0 - pp.2.getD 0 0|, |pp.1.getD 1 0 - pp.2.getD 1 0|,
                    |pp.1.getD 2 0 - pp.2.getD 2 0|, |pp.1.getD 3 0 - pp.2.getD 3 0|])).flatten
      fLt (fDiv (fOfInt diff.sum) (fOfInt diff.length))
        (fOfInt (5 + fFloor (fDiv (fMin resizing (fOfInt 10)) (fOfInt 2))))
    else false
  | _, _ => false

/-- Python's `<` on `(width, height)` tuples: lexicographic. -/
def pairLtI (a b : Int × Int) : Bool :=
  a.1 < b.1 ∨ (a.1 = b.1 ∧ a.2 < b.2)

/-- The resize step of `sameImages` (src lines 789-790):
`if (imageA.size > imageB.size): imageA = imageA.resize(imageB.size)`
`elif (imageA.size < imageB.size): imageB = imageB.resize(imageA.size)` —
whichever image has the lexicographically *larger* `(width, height)` tuple
is resized to the other's dimensions.  `resize` abstracts PIL resampling. -/
def resizedPair (resize : Img → Int × Int → Img) (imageA imageB : Img) : Img × Img :=
  if pairLtI imageB.size imageA.size then (resize imageA imageB.size, imageB)
  else if pairLtI imageA.size imageB.size then (imageA, resize imageB imageA.size)
  else (imageA, imageB)

/-- `sameImages` (src lines 786-798).  The width+height sums feeding the
resizing ratio are taken before resizing; the `convert('RGBA')`/
`convert('RGB')` calls on lines 792-793 and 796-797 discard their results
(no-ops), so the comparisons run on the images' original channel layouts. -/
def sameImages (resize : Img → Int × Int → Img) (imageA imageB : Img) : Bool :=
  let sizeA := imageA.size.1 + imageA.size.2
  let sizeB := imageB.size.1 + imageB.size.2
  let p := resizedPair resize imageA imageB
  if p.1.mode.back = 'A' ∨ p.2.mode.back = 'A' then
    similarEnoughImagesWithAlpha p.1 p.2
      (fDiv (fOfInt (max sizeA sizeB)) (fOfInt (min sizeA sizeB)))
  else
    similarEnoughImages p.1 p.2
      (fDiv (fOfInt (max sizeA sizeB)) (fOfInt (min sizeA sizeB)))

/-! ## Resizing direction and color-model unification in `sameImages` -/

/-- A resize model that sets the requested size and keeps mode and data. -/
def c5resize : Img → Int × Int → Img := fun img sz => ⟨img.mode, sz, img.data⟩

def c5A : Img := ⟨"RGB", (2, 2), [[5, 5, 5]]⟩

def c5B : Img := ⟨"RGB", (1, 1), [[5, 5, 5]]⟩

def c5mixA : Img := ⟨"RGB", (1, 1), [[5, 5, 5]]⟩

def c5mixB : Img := ⟨"RGBA", (1, 1), [[5, 5, 5, 255]]⟩

/-- **C5, counterexample.** For a 2x2 and a 1x1 image it is the *larger*
image that is resized — the comparison runs at the smaller dimensions
`(1,1)`, not at the larger `(2,2)` as claimed; and an RGB/RGBA pair with
identical color values is rejected outright (`sameImages = false`) instead
of being compared in RGBA, because the `convert` calls discard their
results and the 3-channel data then fails the 4-channel arity check. -/
theorem sameImages_resize_direction_counterexample :
    (resizedPair c5resize c5A c5B).1.size = (1, 1) ∧
    (resizedPair c5resize c5A c5B).2.size = (1, 1) ∧
    ¬ ((resizedPair c5resize c5A c5B).1.size = (2, 2) ∧
       (resizedPair c5resize c5A c5B).2.size = (2, 2)) ∧
    sameImages c5resize c5mixA c5mixB = false := by
  decide

lemma pairLtI_both_false {a b : Int × Int} (h1 : pairLtI b a = false)
    (h2 : pairLtI a b = false) : a = b := by
  unfold pairLtI at h1 h2
  rw [decide_eq_false_iff_not] at h1 h2
  push_neg at h1 h2
  obtain ⟨a1, a2⟩ := a
  obtain ⟨b1, b2⟩ := b
  simp only [Prod.mk.injEq]
  dsimp only at h1 h2
  constructor
  · omega
  · omega

lemma pairLtI_self_false (a : Int × Int) : pairLtI a a = false := by
  unfold pairLtI
  simp

/-- **C5, amended.** Whenever the two images reaching the full comparison
have different dimensions, the one with the lexicographically larger
`(width, height)` is resized to the *other's* dimensions, so both proceed
at the lexicographically smaller size (a pure resolution difference still
cannot leave the dimensions unequal); the resize never touches modes, and
since the `convert` calls discard their results, a pair with 3-channel and
4-channel pixel data is always rejected rather than compared in RGBA. -/
theorem sameImages_resizes_larger_to_smaller
    (resize : Img → Int × Int → Img)
    (hsz : ∀ img sz, (resize img sz).size = sz)
    (hmode : ∀ img sz, (resize img sz).mode = img.mode) :
    ∀ A B : Img,
      ((resizedPair resize A B).1.size = (resizedPair resize A B).2.size) ∧
      ((resizedPair resize A B).1.size
        = if pairLtI B.size A.size then B.size else A.size) ∧
      ((resizedPair resize A B).1.mode = A.mode ∧
       (resizedPair resize A B).2.mode = B.mode) ∧
      (∀ (pa pb : List Int) (da db : List (List Int)), A.size = B.size →
        A.data = pa :: da → B.data = pb :: db → pa.length = 3 → pb.length = 4 →
        sameImages resize A B = false) := by
  intro A B
  refine ⟨?_, ?_, ?_, ?_⟩
  · unfold resizedPair
    by_cases h1 : pairLtI B.size A.size = true
    · rw [if_pos h1]
      exact hsz A B.size
    · rw [if_neg h1]
      by_cases h2 : pairLtI A.size B.size = true
      · rw [if_pos h2]
        exact (hsz B A.size).symm
      · rw [if_neg h2]
        show A.size = B.size
        exact pairLtI_both_false (Bool.not_eq_true _ ▸ h1 : pairLtI B.size A.size = false)
          (Bool.not_eq_true _ ▸ h2 : pairLtI A.size B.size = false)
  · unfold resizedPair
    by_cases h1 : pairLtI B.size A.size = true
    · rw [if_pos h1, if_pos h1]
      exact hsz A B.size
    · rw [if_neg h1, if_neg h1]
      by_cases h2 : pairLtI A.size B.size = true
      · rw [if_pos h2]
      · rw [if_neg h2]
  · unfold resizedPair
    by_cases h1 : pairLtI B.size A.size = true
    · rw [if_pos h1]
      exact ⟨hmode A B.size, rfl⟩
    · rw [if_neg h1]
      by_cases h2 : pairLtI A.size B.size = true
      · rw [if_pos h2]
        exact ⟨rfl, hmode B A.size⟩
      · rw [if_neg h2]
        exact ⟨rfl, rfl⟩
  · intro pa pb da db hAB hA hB hpa hpb
    unfold sameImages resizedPair
    rw [hAB, pairLtI_self_false]
    simp only [Bool.false_eq_true, if_false]
    by_cases hm : ((A.mode.back = 'A') ∨ (B.mode.back = 'A'))
    · rw [if_pos hm]
      unfold similarEnoughImagesWithAlpha
      rw [hA, hB]
      simp [hpa]
    · rw [if_neg hm]
      unfold similarEnoughImages
      rw [hA, hB]
      simp [hpb]

/-- Witness for `sameImages_resizes_larger_to_smaller` at a concrete resize
function and concrete images. -/
theorem sameImages_resizes_larger_to_smaller_witness :
    (resizedPair c5resize c5B c5A).1.size = (resizedPair c5resize c5B c5A).2.size :=
  (sameImages_resizes_larger_to_smaller c5resize (fun _ _ => rfl) (fun _ _ => rfl)
    c5B c5A).1

/-! ## Survivor selection in the perceptual deduplicator -/

/-- Lexicographic comparison of char lists by code point: Python's `<` on
strings (kernel-computable, unlike the core `String.ltb`). -/
def charListLt : List Char → List Char → Bool
  | [], [] => false
  | [], _ :: _ => true
  | _ :: _, [] => false
  | c :: cs, d :: ds =>
    if c.toNat < d.toNat then true
    else if d.toNat < c.toNat then false
    else charListLt cs ds

lemma charListLt_asymm : ∀ a b, charListLt a b = true → charListLt b a = false := by
  intro a
  induction a with
  | nil => intro b _; cases b <;> rfl
  | cons c cs ih =>
    intro b hab
    cases b with
    | nil => simp [charListLt] at hab
    | cons d ds =>
      rw [charListLt] at hab ⊢
      by_cases h1 : c.toNat < d.toNat
      · rw [if_neg (by omega), if_pos h1]
      · rw [if_neg h1] at hab
        by_cases h2 : d.toNat < c.toNat
        · rw [if_pos h2] at hab
          simp at hab
        · rw [if_neg h2] at hab
          rw [if_neg h2, if_neg h1]
          exact ih ds hab

lemma charListLt_trans :
    ∀ a b c, charListLt a b = true → charListLt b c = true → charListLt a c = true := by
  intro a
  induction a with
  | nil =>
    intro b c hab hbc
    cases b with
    | nil => simp [charListLt] at hab
    | cons d ds =>
      cases c with
      | nil => simp [charListLt] at hbc
      | cons e es => rfl
  | cons x xs ih =>
    intro b c hab hbc
    cases b with
    | nil => simp [charListLt] at hab
    | cons d ds =>
      cases c with
      | nil => simp [charListLt] at hbc
      | cons e es =>
        rw [charListLt] at hab hbc ⊢
        by_cases h1 : x.toNat < d.toNat
        · by_cases h2 : d.toNat < e.toNat
          · rw [if_pos (by omega)]
          · rw [if_neg h2] at hbc
            by_cases h3 : e.toNat < d.toNat
            · rw [if_pos h3] at hbc
              simp at hbc
            · rw [if_pos (by omega)]
        · rw [if_neg h1] at hab
          by_cases h4 : d.toNat < x.toNat
          · rw [if_pos h4] at hab
            simp at hab
          · rw [if_neg h4] at hab
            by_cases h2 : d.toNat < e.toNat
            · rw [if_pos (by omega)]
            · rw [if_neg h2] at hbc
              by_cases h3 : e.toNat < d.toNat
              · rw [if_pos h3] at hbc
                simp at hbc
              · rw [if_neg h3] at hbc
                rw [if_neg (by omega), if_neg (by omega)]
                exact ih ds es hab hbc

lemma charListLt_connex :
    ∀ a b, charListLt a b = false → charListLt b a = false → a = b := by
  intro a
  induction a with
  | nil =>
    intro b hab _
    cases b with
    | nil => rfl
    | cons d ds => simp [charListLt] at hab
  | cons c cs ih =>
    intro b hab hba
    cases b with
    | nil => simp [charListLt] at hba
    | cons d ds =>
      rw [charListLt] at hab hba
      by_cases h1 : c.toNat < d.toNat
      · rw [if_pos h1] at hab
        simp at hab
      · rw [if_neg h1] at hab
        by_cases h2 : d.toNat < c.toNat
        · rw [if_pos h2] at hba
          simp at hba
        · rw [if_neg h2] at hab
          rw [if_neg (by omega), if_neg (by omega)] at hba
          have hnat : c.toNat = d.toNat := by omega
          have hcd : c = d := Char.eq_of_val_eq (UInt32.toNat.inj hnat)
          rw [hcd, ih ds hab hba]

/-- Python's `<` on strings. -/
def pyStrLt (a b : String) : Bool := charListLt a.toList b.toList

/-- Python's `<=` on strings (total order: `a <= b` iff not `b < a`). -/
def pyStrLe (a b : String) : Bool := !(pyStrLt b a)

lemma pyStrLe_of_not (a b : String) (h : ¬ charListLt b.toList a.toList = true) :
    pyStrLe a b = true := by
  unfold pyStrLe pyStrLt
  rcases Bool.eq_false_or_eq_true (charListLt b.toList a.toList) with ht | hf
  · exact absurd ht h
  · rw [hf]
    rfl

lemma not_of_pyStrLe (a b : String) (h : pyStrLe a b = true) :
    charListLt b.toList a.toList = false := by
  unfold pyStrLe pyStrLt at h
  rcases Bool.eq_false_or_eq_true (charListLt b.toList a.toList) with ht | hf
  · rw [ht] at h
    simp at h
  · exact hf

/-- Python's tuple order on the `(width+height, path)` pairs stored in a
duplicate group. -/
def groupPairLe (a b : Int × String) : Prop :=
  a.1 < b.1 ∨ (a.1 = b.1 ∧ pyStrLe a.2 b.2 = true)

instance : DecidableRel groupPairLe := by
  unfold groupPairLe; infer_instance

instance : IsTotal (Int × String) groupPairLe := by
  constructor
  intro a b
  unfold groupPairLe
  by_cases h1 : a.1 < b.1
  · exact Or.inl (Or.inl h1)
  by_cases h2 : b.1 < a.1
  · exact Or.inr (Or.inl h2)
  have he : a.1 = b.1 := by omega
  by_cases h3 : charListLt b.2.toList a.2.toList = true
  · refine Or.inr (Or.inr ⟨he.symm, pyStrLe_of_not b.2 a.2 ?_⟩)
    rw [charListLt_asymm _ _ h3]
    simp
  · exact Or.inl (Or.inr ⟨he, pyStrLe_of_not a.2 b.2 h3⟩)

instance : IsTrans (Int × String) groupPairLe := by
  constructor
  intro a b c hab hbc
  unfold groupPairLe at hab hbc ⊢
  rcases hab with h1 | ⟨he1, hs1⟩
  · rcases hbc with h2 | ⟨he2, _⟩
    · exact Or.inl (by omega)
    · exact Or.inl (by omega)
  · rcases hbc with h2 | ⟨he2, hs2⟩
    · exact Or.inl (by omega)
    · refine Or.inr ⟨by omega, pyStrLe_of_not a.2 c.2 ?_⟩
      have hba := not_of_pyStrLe a.2 b.2 hs1
      have hcb := not_of_pyStrLe b.2 c.2 hs2
      intro hca
      by_cases hbc2 : charListLt b.2.toList c.2.toList = true
      · have := charListLt_trans _ _ _ hbc2 hca
        rw [this] at hba
        simp at hba
      · have heq : b.2.toList = c.2.toList := by
          refine charListLt_connex _ _ ?_ hcb
          rcases Bool.eq_false_or_eq_true (charListLt b.2.toList c.2.toList) with ht | hf
          · exact absurd ht hbc2
          · exact hf
        rw [← heq] at hca
        rw [hca] at hba
        simp at hba

/-- Python's `max(xs, key=...)`: the first element with maximal key wins
(later elements replace the current maximum only when strictly greater). -/
def pyMaxBy (key : String → Nat) : String → List String → String
  | cur, [] => cur
  | cur, x :: xs => if key cur < key x then pyMaxBy key x xs else pyMaxBy key cur xs

/-- `removeSmallerVisualDuplicates` (src lines 800-812): sort the group's
`(width+height, path)` pairs, take the largest stored `width+height`, keep
among those the file with the largest `fileSize` (first such in sorted
order), and delete every other member still present on disk.  Returns the
updated filesystem and the number of deletions performed. -/
def removeSmallerVisualDuplicates (locked : String → Bool) (fs : FS)
    (duplicatesGroup : List (Int × String)) : FS × Nat :=
  if 1 < duplicatesGroup.length then
    let sortedGroup := pySorted groupPairLe duplicatesGroup
    let largestSize := (sortedGroup.getLastD (0, "")).1
    let largest := (sortedGroup.filter (fun se => largestSize ≤ se.1)).map (fun se => se.2)
    let survivor :=
      match largest with
      | [] => ""
      | x :: xs => if xs = [] then x else pyMaxBy (fileSizeM fs) x xs
    sortedGroup.foldl
      (fun (st : FS × Nat) (se : Int × String) =>
        if se.2 ≠ survivor ∧ existsM st.1 se.2 then
          (removeFileM locked st.1 se.2, st.2 + 1)
        else st)
      (fs, 0)
  else (fs, 0)

/-! ## The visual deduplication scan (src lines 1413-1464) -/

/-- State of one inner scan (the `for j` loop at src lines 1440-1460):
the record table, the lazily opened seed image, the group collected so far
and the `done` counter. -/
structure VInner where
  recs : Nat → ImageRec
  image : Option Img
  group : List (Int × String)
  done : Nat

/-- Pointwise record update (`files[j] = r`). -/
def updIRec (recs : Nat → ImageRec) (j : Nat) (r : ImageRec) : Nat → ImageRec :=
  fun k => if k = j then r else recs k

/-- Lines 1444-1448: lazily open the seed image once per group, caching its
average color into `files[i]` on first use; a failed open yields `none`
(which makes the scan `break`). -/
def seedOpen (decode : String → Option Img) (i : Nat) (st : VInner) :
    (Nat → ImageRec) × Option Img :=
  match st.image with
  | some img => (st.recs, some img)
  | none =>
    match (match (st.recs i).path with
           | some pi => decode pi
           | none => none) with
    | none => (st.recs, none)
    | some img =>
      if (st.recs i).avg = none then
        (updIRec st.recs i
          ⟨(st.recs i).okey, (st.recs i).dims, averageRGB img,
            (st.recs i).path⟩, some img)
      else (st.recs, some img)

/-- Lines 1454-1455: cache the candidate's average color on first use. -/
def cacheAvg (recs : Nat → ImageRec) (st : VInner) (j : Nat)
    (anotherImage : Img) : Nat → ImageRec :=
  if (st.recs j).avg = none then
    updIRec recs j
      ⟨(st.recs j).okey, (st.recs j).dims, averageRGB anotherImage,
        (st.recs j).path⟩
  else recs

/-- The inner scan from seed `i` (src lines 1440-1460): skip records without
a path, `break` when the aspect ratio stops matching, pre-filter on cached
average colors, lazily open the seed (a failure breaks out of the group),
sentinel-ize a candidate whose open fails, cache average colors, and on a
`sameImages` match append the candidate to the group and clear its record. -/
def innerVisual (decode : String → Option Img) (resize : Img → Int × Int → Img)
    (i : Nat) (st : VInner) : List Nat → VInner
  | [] => st
  | j :: js =>
    match (st.recs j).path with
    | none => innerVisual decode resize i st js
    | some pj =>
      if ¬ sameRatio (st.recs i).dims (st.recs j).dims then st
      else if ¬ similarEnoughRGBColors (st.recs i).avg (st.recs j).avg then
        innerVisual decode resize i st js
      else
        match (seedOpen decode i st).2 with
        | none => st
        | some img =>
          match decode pj with
          | none =>
            innerVisual decode resize i
              { st with
                recs := (updIRec (seedOpen decode i st).1 j
                  ⟨0, (st.recs j).dims, (st.recs j).avg, none⟩) } js
          | some anotherImage =>
            if sameImages resize img anotherImage then
              innerVisual decode resize i
                ⟨updIRec (cacheAvg (seedOpen decode i st).1 st j anotherImage) j
                    ⟨0, (st.recs j).dims,
                      (cacheAvg (seedOpen decode i st).1 st j anotherImage j).avg, none⟩,
                  some img,
                  st.group ++ [((st.recs j).dims.1 + (st.recs j).dims.2, pj)],
                  st.done + 1⟩ js
            else
              innerVisual decode resize i
                ⟨cacheAvg (seedOpen decode i st).1 st j anotherImage,
                  some img, st.group, st.done⟩ js

/-- State of the whole visual phase: records, filesystem, counters, and the
list of finished groups (each group is handed to
`removeSmallerVisualDuplicates` as soon as its scan ends). -/
structure VState where
  recs : Nat → ImageRec
  fs : FS
  done : Nat
  dd : Nat
  groups : List (List (Int × String))

/-- The outer loop (src lines 1434-1461): seed each not-yet-cleared record,
run the inner scan, then delete the smaller members of the finished group. -/
def outerVisual (decode : String → Option Img) (resize : Img → Int × Int → Img)
    (locked : String → Bool) (n : Nat) (s : VState) : List Nat → VState
  | [] => s
  | i :: is =>
    match (s.recs i).path with
    | none => outerVisual decode resize locked n s is
    | some pi =>
      let st1 := innerVisual decode resize i
        ⟨s.recs, none, [((s.recs i).dims.1 + (s.recs i).dims.2, pi)], s.done + 1⟩
        (List.range' (i + 1) (n - (i + 1)))
      let rd := removeSmallerVisualDuplicates locked s.fs st1.group
      outerVisual decode resize locked n
        ⟨st1.recs, rd.1, st1.done, s.dd + rd.2, s.groups ++ [st1.group]⟩ is

/-- The whole visual-dedup phase (src lines 1422-1461): walk the tree for
image files, precompute `imageWithInfo` features, double-sort, scan. -/
def visualDedupPhase (decode : String → Option Img) (resize : Img → Int × Int → Img)
    (locked : String → Bool) (walk : List String) (fs : FS) : VState :=
  let files := imageDoubleSort (walk.map (imageWithInfo decode))
  outerVisual decode resize locked files.length
    ⟨fun k => files.getD k ⟨0, (-999, -999), some (999, 999, 999), none⟩,
      fs, 0, 0, []⟩
    (List.range' 0 files.length)

/-! ## C7: survivor selection facts -/

lemma charListLt_irrefl : ∀ a, charListLt a a = false := by
  intro a
  induction a with
  | nil => rfl
  | cons c cs ih =>
    rw [charListLt]
    rw [if_neg (by omega), if_neg (by omega)]
    exact ih

lemma groupPairLe_refl (a : Int × String) : groupPairLe a a := by
  refine Or.inr ⟨rfl, ?_⟩
  unfold pyStrLe pyStrLt
  rw [charListLt_irrefl]
  rfl

lemma getLastD_mem : ∀ (l : List (Int × String)) (d : Int × String), l ≠ [] →
    l.getLastD d ∈ l := by
  intro l
  induction l with
  | nil => intro d h; exact absurd rfl h
  | cons a t ih =>
    intro d _
    cases t with
    | nil => simp [List.getLastD]
    | cons b t2 =>
      rw [List.getLastD_cons]
      exact List.mem_cons_of_mem a (ih a (by simp))

lemma sorted_le_getLastD : ∀ (l : List (Int × String)) (d : Int × String),
    List.Sorted groupPairLe l → ∀ m ∈ l, groupPairLe m (l.getLastD d) := by
  intro l
  induction l with
  | nil => intro d _ m hm; simp at hm
  | cons a t ih =>
    intro d hs m hm
    rw [List.sorted_cons] at hs
    cases t with
    | nil =>
      simp at hm
      subst hm
      simp [List.getLastD]
      exact groupPairLe_refl m
    | cons b t2 =>
      rw [List.getLastD_cons]
      rcases List.mem_cons.mp hm with hma | hmt
      · subst hma
        exact hs.1 _ (getLastD_mem (b :: t2) m (by simp))
      · exact ih m hs.2 _ hmt

lemma groupPairLe_fst {a b : Int × String} (h : groupPairLe a b) : a.1 ≤ b.1 := by
  rcases h with h | ⟨h, _⟩
  · omega
  · omega

lemma pyMaxBy_mem (key : String → Nat) :
    ∀ (xs : List String) (cur : String), pyMaxBy key cur xs ∈ cur :: xs := by
  intro xs
  induction xs with
  | nil => intro cur; simp [pyMaxBy]
  | cons x xs ih =>
    intro cur
    rw [pyMaxBy]
    by_cases h : key cur < key x
    · rw [if_pos h]
      rcases List.mem_cons.mp (ih x) with h2 | h2
      · rw [h2]; simp
      · simp [List.mem_cons_of_mem, h2]
    · rw [if_neg h]
      rcases List.mem_cons.mp (ih cur) with h2 | h2
      · rw [h2]; simp
      · simp [List.mem_cons_of_mem, h2]

lemma pyMaxBy_ge (key : String → Nat) :
    ∀ (xs : List String) (cur y : String), y ∈ cur :: xs →
      key y ≤ key (pyMaxBy key cur xs) := by
  intro xs
  induction xs with
  | nil =>
    intro cur y hy
    simp at hy
    subst hy
    simp [pyMaxBy]
  | cons x xs ih =>
    intro cur y hy
    rw [pyMaxBy]
    by_cases h : key cur < key x
    · rw [if_pos h]
      rcases List.mem_cons.mp hy with h2 | h2
      · subst h2
        exact le_trans (le_of_lt h) (ih x x (by simp))
      · exact ih x y h2
    · rw [if_neg h]
      rcases List.mem_cons.mp hy with h2 | h2
      · rw [h2]
        exact ih cur cur (by simp)
      · rcases List.mem_cons.mp h2 with h3 | h3
        · refine le_trans (show key y ≤ key cur by rw [h3]; omega) ?_
          exact ih cur cur (by simp)
        · exact ih cur y (List.mem_cons_of_mem cur h3)

/-- The deletion loop of `removeSmallerVisualDuplicates`, abstracted over the
survivor path `sv`. -/
def removeFoldF (sv : String) : FS × Nat → Int × String → FS × Nat :=
  fun st se =>
    if se.2 ≠ sv ∧ existsM st.1 se.2 then
      (removeFileM (fun _ => false) st.1 se.2, st.2 + 1)
    else st

lemma removeFold_sv (sv : String) : ∀ (l : List (Int × String)) (st : FS × Nat),
    (List.foldl (removeFoldF sv) st l).1 sv = st.1 sv := by
  intro l
  induction l with
  | nil => intro st; rfl
  | cons se rest ih =>
    intro st
    rw [List.foldl_cons]
    by_cases h : se.2 ≠ sv ∧ existsM st.1 se.2
    · rw [show removeFoldF sv st se = (removeFileM (fun _ => false) st.1 se.2, st.2 + 1)
        from by unfold removeFoldF; rw [if_pos h]]
      rw [ih]
      show removeFileM (fun _ => false) st.1 se.2 sv = st.1 sv
      exact removeFileM_ne _ st.1 (Ne.symm h.1)
    · rw [show removeFoldF sv st se = st from by unfold removeFoldF; rw [if_neg h]]
      exact ih st

lemma removeFold_none (sv : String) : ∀ (l : List (Int × String)) (st : FS × Nat)
    (p : String), st.1 p = none → (List.foldl (removeFoldF sv) st l).1 p = none := by
  intro l
  induction l with
  | nil => intro st p h; exact h
  | cons se rest ih =>
    intro st p h
    rw [List.foldl_cons]
    by_cases hc : se.2 ≠ sv ∧ existsM st.1 se.2
    · rw [show removeFoldF sv st se = (removeFileM (fun _ => false) st.1 se.2, st.2 + 1)
        from by unfold removeFoldF; rw [if_pos hc]]
      refine ih _ p ?_
      show removeFileM (fun _ => false) st.1 se.2 p = none
      exact removeFileM_none _ st.1 _ h
    · rw [show removeFoldF sv st se = st from by unfold removeFoldF; rw [if_neg hc]]
      exact ih st p h

lemma removeFold_hits (sv : String) : ∀ (l : List (Int × String)) (st : FS × Nat)
    (p : String), p ≠ sv → (∃ k ∈ l, k.2 = p) →
    (List.foldl (removeFoldF sv) st l).1 p = none := by
  intro l
  induction l with
  | nil => intro st p _ hk; simp at hk
  | cons se rest ih =>
    intro st p hp hk
    rw [List.foldl_cons]
    by_cases hse : se.2 = p
    · by_cases hex : existsM st.1 se.2 = true
      · have hne : se.2 ≠ sv := hse ▸ hp
        rw [show removeFoldF sv st se = (removeFileM (fun _ => false) st.1 se.2, st.2 + 1)
          from by unfold removeFoldF; rw [if_pos ⟨hne, hex⟩]]
        refine removeFold_none sv rest _ p ?_
        show removeFileM (fun _ => false) st.1 se.2 p = none
        rw [← hse]
        exact removeFileM_noLock_self st.1 se.2
      · rw [show removeFoldF sv st se = st
          from by unfold removeFoldF; rw [if_neg (by intro hcon; exact hex hcon.2)]]
        refine removeFold_none sv rest st p ?_
        unfold existsM at hex
        rw [← hse]
        rcases h2 : st.1 se.2 with _ | v
        · rfl
        · rw [h2] at hex
          simp at hex
    · rcases hk with ⟨k, hkmem, hkp⟩
      rcases List.mem_cons.mp hkmem with h3 | h3
      · exact absurd (h3 ▸ hkp) hse
      · exact ih _ p hp ⟨k, h3, hkp⟩

/-- `removeSmallerVisualDuplicates` in terms of the abstract deletion fold,
once the `largest` list is known to be nonempty. -/
lemma removeSmaller_eq_fold (fs : FS) (g : List (Int × String)) (hlen : 1 < g.length)
    (x : String) (xs : List String)
    (hlg : ((pySorted groupPairLe g).filter
        (fun se => ((pySorted groupPairLe g).getLastD (0, "")).1 ≤ se.1)).map
          (fun se => se.2) = x :: xs) :
    removeSmallerVisualDuplicates (fun _ => false) fs g
      = List.foldl (removeFoldF (if xs = [] then x else pyMaxBy (fileSizeM fs) x xs))
          (fs, 0) (pySorted groupPairLe g) := by
  unfold removeSmallerVisualDuplicates removeFoldF
  rw [if_pos hlen]
  simp only [hlg]

/-- **C7, amended.** In a finished group with at least two members, the
surviving member is the one with the largest *stored key* `width + height`
(not the pixel count), with ties broken by the largest file size; its file
is left untouched and every other member's path is absent from the
resulting filesystem. -/
theorem removeSmallerVisualDuplicates_survivor (fs : FS) (g : List (Int × String))
    (hlen : 1 < g.length) :
    ∃ s ∈ g,
      (∀ m ∈ g, m.1 ≤ s.1) ∧
      (∀ m ∈ g, m.1 = s.1 → fileSizeM fs m.2 ≤ fileSizeM fs s.2) ∧
      (removeSmallerVisualDuplicates (fun _ => false) fs g).1 s.2 = fs s.2 ∧
      (∀ m ∈ g, m.2 ≠ s.2 →
        (removeSmallerVisualDuplicates (fun _ => false) fs g).1 m.2 = none) := by
  have hperm : (pySorted groupPairLe g).Perm g := List.perm_insertionSort _ g
  have hsorted : List.Sorted groupPairLe (pySorted groupPairLe g) :=
    List.sorted_insertionSort _ g
  have hmem : ∀ m : Int × String, m ∈ pySorted groupPairLe g ↔ m ∈ g :=
    fun m => hperm.mem_iff
  have hne : pySorted groupPairLe g ≠ [] := by
    intro h
    have hl := hperm.length_eq
    rw [h] at hl
    simp at hl
    omega
  have hlastmem : (pySorted groupPairLe g).getLastD (0, "") ∈ pySorted groupPairLe g :=
    getLastD_mem _ _ hne
  have hmax : ∀ m ∈ pySorted groupPairLe g,
      m.1 ≤ ((pySorted groupPairLe g).getLastD (0, "")).1 :=
    fun m hm => groupPairLe_fst (sorted_le_getLastD _ _ hsorted m hm)
  have hlastlg : ((pySorted groupPairLe g).getLastD (0, "")).2 ∈
      ((pySorted groupPairLe g).filter
        (fun se => ((pySorted groupPairLe g).getLastD (0, "")).1 ≤ se.1)).map
          (fun se => se.2) :=
    List.mem_map_of_mem _ (List.mem_filter.mpr ⟨hlastmem, by simp⟩)
  have hlgmem : ∀ q ∈ ((pySorted groupPairLe g).filter
      (fun se => ((pySorted groupPairLe g).getLastD (0, "")).1 ≤ se.1)).map
        (fun se => se.2),
      ∃ m, m ∈ pySorted groupPairLe g ∧ m.2 = q ∧
        m.1 = ((pySorted groupPairLe g).getLastD (0, "")).1 := by
    intro q hq
    obtain ⟨m, hmf, hmq⟩ := List.mem_map.mp hq
    have hm2 := List.mem_filter.mp hmf
    refine ⟨m, hm2.1, hmq, le_antisymm (hmax m hm2.1) (by simpa using hm2.2)⟩
  have hlgof : ∀ m ∈ pySorted groupPairLe g,
      m.1 = ((pySorted groupPairLe g).getLastD (0, "")).1 →
      m.2 ∈ ((pySorted groupPairLe g).filter
        (fun se => ((pySorted groupPairLe g).getLastD (0, "")).1 ≤ se.1)).map
          (fun se => se.2) := by
    intro m hm hkey
    exact List.mem_map_of_mem _ (List.mem_filter.mpr ⟨hm, by simp [hkey]⟩)
  obtain ⟨x, xs, hlg⟩ : ∃ x xs,
      ((pySorted groupPairLe g).filter
        (fun se => ((pySorted groupPairLe g).getLastD (0, "")).1 ≤ se.1)).map
          (fun se => se.2) = x :: xs := by
    cases hc : ((pySorted groupPairLe g).filter
        (fun se => ((pySorted groupPairLe g).getLastD (0, "")).1 ≤ se.1)).map
          (fun se => se.2) with
    | nil => rw [hc] at hlastlg; simp at hlastlg
    | cons y ys => exact ⟨y, ys, rfl⟩
  have hsvlg : (if xs = [] then x else pyMaxBy (fileSizeM fs) x xs) ∈ x :: xs := by
    by_cases hxs : xs = []
    · rw [if_pos hxs]; simp
    · rw [if_neg hxs]; exact pyMaxBy_mem _ xs x
  have hsvge : ∀ q ∈ x :: xs,
      fileSizeM fs q ≤ fileSizeM fs (if xs = [] then x else pyMaxBy (fileSizeM fs) x xs) := by
    intro q hq
    by_cases hxs : xs = []
    · rw [if_pos hxs]
      rw [hxs] at hq
      simp at hq
      rw [hq]
    · rw [if_neg hxs]
      exact pyMaxBy_ge _ xs x q hq
  obtain ⟨s, hsmem, hs2, hs1⟩ :=
    hlgmem (if xs = [] then x else pyMaxBy (fileSizeM fs) x xs) (hlg ▸ hsvlg)
  have hres := removeSmaller_eq_fold fs g hlen x xs hlg
  refine ⟨s, (hmem s).mp hsmem, ?_, ?_, ?_, ?_⟩
  · intro m hm
    rw [hs1]
    exact hmax m ((hmem m).mpr hm)
  · intro m hm hkey
    rw [hs2]
    refine hsvge m.2 ?_
    rw [← hlg]
    exact hlgof m ((hmem m).mpr hm) (by rw [hkey]; exact hs1)
  · rw [hres, hs2]
    exact removeFold_sv _ _ (fs, 0)
  · intro m hm hms
    rw [hres]
    refine removeFold_hits _ _ (fs, 0) m.2 ?_ ⟨m, (hmem m).mpr hm, rfl⟩
    rw [← hs2]
    exact hms

/-- Decode oracle for two visually identical images with nearly equal aspect
ratios (2.003 vs 1.994, equal after rounding within the 1% tolerance),
whose width+height sums tie at 1000 while the pixel counts differ:
667*333 = 222111 < 666*334 = 222444. -/
def c7decode : String → Option Img :=
  fun p =>
    if p = "a" then some ⟨"RGB", (667, 333), [[5, 5, 5]]⟩
    else if p = "b" then some ⟨"RGB", (666, 334), [[5, 5, 5]]⟩
    else none

/-- On-disk files: `a` is 9 bytes, `b` is 3 bytes. -/
def c7fs : FS :=
  fun p =>
    if p = "a" then some [1, 1, 1, 1, 1, 1, 1, 1, 1]
    else if p = "b" then some [1, 1, 1]
    else none

/-- **C7, counterexample.** The finished group holds both images; the member
`b` has the strictly larger pixel count (222444 > 222111), yet the code
deletes `b` and keeps `a`: the stored keys `width+height` tie at 1000 and
the file-size tiebreak picks `a` (9 bytes > 3 bytes) — the survivor is not
the member with the largest pixel count. -/
theorem visualDedup_survivor_not_max_pixel_count :
    (visualDedupPhase c7decode c5resize (fun _ => false) ["a", "b"] c7fs).groups
      = [[(1000, "b"), (1000, "a")]] ∧
    (imageWithInfo c7decode "b").dims.1 * (imageWithInfo c7decode "b").dims.2
      > (imageWithInfo c7decode "a").dims.1 * (imageWithInfo c7decode "a").dims.2 ∧
    (visualDedupPhase c7decode c5resize (fun _ => false) ["a", "b"] c7fs).fs "b"
      = none ∧
    (visualDedupPhase c7decode c5resize (fun _ => false) ["a", "b"] c7fs).fs "a"
      = some [1, 1, 1, 1, 1, 1, 1, 1, 1] := by
  refine ⟨by decide, by decide, by decide, by decide⟩

/-- Witness for `removeSmallerVisualDuplicates_survivor` at the concrete
two-member group of the counterexample scenario. -/
theorem removeSmallerVisualDuplicates_survivor_witness :
    ∃ s ∈ [((1000 : Int), "b"), (1000, "a")],
      (∀ m ∈ [((1000 : Int), "b"), (1000, "a")], m.1 ≤ s.1) ∧
      (∀ m ∈ [((1000 : Int), "b"), (1000, "a")], m.1 = s.1 →
        fileSizeM c7fs m.2 ≤ fileSizeM c7fs s.2) ∧
      (removeSmallerVisualDuplicates (fun _ => false) c7fs
        [(1000, "b"), (1000, "a")]).1 s.2 = c7fs s.2 ∧
      (∀ m ∈ [((1000 : Int), "b"), (1000, "a")], m.2 ≠ s.2 →
        (removeSmallerVisualDuplicates (fun _ => false) c7fs
          [(1000, "b"), (1000, "a")]).1 m.2 = none) :=
  removeSmallerVisualDuplicates_survivor c7fs [(1000, "b"), (1000, "a")] (by norm_num)

/-! ## C9: an unreadable image is never deleted or grouped -/

lemma updIRec_path_ne (recs : Nat → ImageRec) (j : Nat) (r : ImageRec) (p : String)
    (hP : ∀ k, (recs k).path ≠ some p) (hr : r.path ≠ some p) :
    ∀ k, ((updIRec recs j r) k).path ≠ some p := by
  intro k
  unfold updIRec
  split
  · exact hr
  · exact hP k

lemma seedOpen_path (decode : String → Option Img) (i : Nat) (st : VInner)
    (p : String) (hP : ∀ k, (st.recs k).path ≠ some p) :
    ∀ k, (((seedOpen decode i st).1) k).path ≠ some p := by
  unfold seedOpen
  cases st.image with
  | some img => exact hP
  | none =>
    cases hdec : (match (st.recs i).path with
                  | some pi => decode pi
                  | none => none) with
    | none => simpa [hdec] using hP
    | some img =>
      simp only [hdec]
      by_cases havg : (st.recs i).avg = none
      · rw [if_pos havg]
        exact updIRec_path_ne st.recs i _ p hP (hP i)
      · rw [if_neg havg]
        exact hP

lemma cacheAvg_path (recs : Nat → ImageRec) (st : VInner) (j : Nat)
    (anotherImage : Img) (p : String)
    (hP : ∀ k, (recs k).path ≠ some p) (hj : (st.recs j).path ≠ some p) :
    ∀ k, ((cacheAvg recs st j anotherImage) k).path ≠ some p := by
  unfold cacheAvg
  split
  · exact updIRec_path_ne recs j _ p hP hj
  · exact hP

/-- The inner scan preserves "no record and no group entry mentions `p`". -/
lemma innerVisual_pres (decode : String → Option Img)
    (resize : Img → Int × Int → Img) (i : Nat) (p : String) :
    ∀ (js : List Nat) (st : VInner), (∀ k, (st.recs k).path ≠ some p) →
      (∀ k ∈ st.group, k.2 ≠ p) →
      (∀ k, (((innerVisual decode resize i st js).recs) k).path ≠ some p) ∧
      (∀ k ∈ (innerVisual decode resize i st js).group, k.2 ≠ p) := by
  intro js
  induction js with
  | nil => intro st h1 h2; exact ⟨h1, h2⟩
  | cons j js ih =>
    intro st h1 h2
    rw [innerVisual]
    cases hpj : (st.recs j).path with
    | none => exact ih st h1 h2
    | some pj =>
      dsimp only
      by_cases hr : ¬ sameRatio (st.recs i).dims (st.recs j).dims
      · rw [if_pos hr]
        exact ⟨h1, h2⟩
      · rw [if_neg hr]
        by_cases hc : ¬ similarEnoughRGBColors (st.recs i).avg (st.recs j).avg
        · rw [if_pos hc]
          exact ih st h1 h2
        · rw [if_neg hc]
          cases hop : (seedOpen decode i st).2 with
          | none => exact ⟨h1, h2⟩
          | some img =>
            have hP2 := seedOpen_path decode i st p h1
            dsimp only
            cases hdj : decode pj with
            | none =>
              dsimp only
              refine ih _ ?_ h2
              exact updIRec_path_ne _ j _ p hP2 (by simp)
            | some anotherImage =>
              dsimp only
              have hpjp : pj ≠ p := by
                intro hcon
                apply h1 j
                rw [hpj, hcon]
              by_cases hs : sameImages resize img anotherImage = true
              · rw [if_pos hs]
                refine ih
                  ⟨updIRec (cacheAvg (seedOpen decode i st).1 st j anotherImage) j
                      ⟨0, (st.recs j).dims,
                        (cacheAvg (seedOpen decode i st).1 st j anotherImage j).avg, none⟩,
                    some img,
                    st.group ++ [((st.recs j).dims.1 + (st.recs j).dims.2, pj)],
                    st.done + 1⟩ ?_ ?_
                · intro k
                  exact updIRec_path_ne _ j _ p
                    (cacheAvg_path _ st j anotherImage p hP2 (hpj ▸ h1 j)) (by simp) k
                · intro k hk
                  rcases List.mem_append.mp hk with hko | hkn
                  · exact h2 k hko
                  · have hkval : k = ((st.recs j).dims.1 + (st.recs j).dims.2, pj) := by
                      simpa using hkn
                    rw [hkval]
                    exact hpjp
              · rw [if_neg hs]
                refine ih
                  ⟨cacheAvg (seedOpen decode i st).1 st j anotherImage,
                    some img, st.group, st.done⟩ ?_ h2
                intro k
                exact cacheAvg_path _ st j anotherImage p hP2 (hpj ▸ h1 j) k

lemma removeFoldAny_other (locked : String → Bool) (sv : String) :
    ∀ (l : List (Int × String)) (st : FS × Nat) (p : String), (∀ k ∈ l, k.2 ≠ p) →
      (List.foldl (fun (st : FS × Nat) (se : Int × String) =>
          if se.2 ≠ sv ∧ existsM st.1 se.2 then
            (removeFileM locked st.1 se.2, st.2 + 1) else st) st l).1 p = st.1 p := by
  intro l
  induction l with
  | nil => intro st p _; rfl
  | cons se rest ih =>
    intro st p h
    rw [List.foldl_cons]
    have hse : se.2 ≠ p := h se (List.mem_cons_self se rest)
    have hrest : ∀ k ∈ rest, k.2 ≠ p := fun k hk => h k (List.mem_cons_of_mem se hk)
    by_cases hc : se.2 ≠ sv ∧ existsM st.1 se.2
    · rw [show (if se.2 ≠ sv ∧ existsM st.1 se.2 then
          (removeFileM locked st.1 se.2, st.2 + 1) else st) =
          (removeFileM locked st.1 se.2, st.2 + 1) from if_pos hc]
      rw [ih _ p hrest]
      show removeFileM locked st.1 se.2 p = st.1 p
      exact removeFileM_ne locked st.1 (fun hps => hse hps.symm)
    · rw [show (if se.2 ≠ sv ∧ existsM st.1 se.2 then
          (removeFileM locked st.1 se.2, st.2 + 1) else st) = st from if_neg hc]
      exact ih st p hrest

lemma removeSmaller_fs_other (locked : String → Bool) (fs : FS)
    (g : List (Int × String)) (p : String) (h : ∀ k ∈ g, k.2 ≠ p) :
    (removeSmallerVisualDuplicates locked fs g).1 p = fs p := by
  unfold removeSmallerVisualDuplicates
  by_cases hlen : 1 < g.length
  · rw [if_pos hlen]
    have hs : ∀ k ∈ pySorted groupPairLe g, k.2 ≠ p :=
      fun k hk => h k ((List.perm_insertionSort groupPairLe g).mem_iff.mp hk)
    exact removeFoldAny_other locked _ _ (fs, 0) p hs
  · rw [if_neg hlen]

/-- The outer visual scan preserves "no record, no group entry and the
file at `p` mention/touch `p`". -/
lemma outerVisual_pres (decode : String → Option Img)
    (resize : Img → Int × Int → Img) (locked : String → Bool) (n : Nat)
    (p : String) :
    ∀ (is : List Nat) (s : VState),
      (∀ k, (s.recs k).path ≠ some p) → (∀ g ∈ s.groups, ∀ k ∈ g, k.2 ≠ p) →
      (∀ k, ((outerVisual decode resize locked n s is).recs k).path ≠ some p) ∧
      (∀ g ∈ (outerVisual decode resize locked n s is).groups, ∀ k ∈ g, k.2 ≠ p) ∧
      (outerVisual decode resize locked n s is).fs p = s.fs p := by
  intro is
  induction is with
  | nil => intro s h1 h2; exact ⟨h1, h2, rfl⟩
  | cons i is ih =>
    intro s h1 h2
    rw [outerVisual]
    cases hpi : (s.recs i).path with
    | none => exact ih s h1 h2
    | some pi =>
      dsimp only
      have hpip : pi ≠ p := by
        intro hcon
        apply h1 i
        rw [hpi, hcon]
      have hginit : ∀ k ∈ [((s.recs i).dims.1 + (s.recs i).dims.2, pi)], k.2 ≠ p := by
        intro k hk
        have : k = ((s.recs i).dims.1 + (s.recs i).dims.2, pi) := by simpa using hk
        rw [this]
        exact hpip
      obtain ⟨hr1, hr2⟩ := innerVisual_pres decode resize i p
        (List.range' (i + 1) (n - (i + 1)))
        ⟨s.recs, none, [((s.recs i).dims.1 + (s.recs i).dims.2, pi)], s.done + 1⟩
        h1 hginit
      obtain ⟨ho1, ho2, ho3⟩ := ih
        ⟨(innerVisual decode resize i
            ⟨s.recs, none, [((s.recs i).dims.1 + (s.recs i).dims.2, pi)], s.done + 1⟩
            (List.range' (i + 1) (n - (i + 1)))).recs,
          (removeSmallerVisualDuplicates locked s.fs
            (innerVisual decode resize i
              ⟨s.recs, none, [((s.recs i).dims.1 + (s.recs i).dims.2, pi)], s.done + 1⟩
              (List.range' (i + 1) (n - (i + 1)))).group).1,
          (innerVisual decode resize i
            ⟨s.recs, none, [((s.recs i).dims.1 + (s.recs i).dims.2, pi)], s.done + 1⟩
            (List.range' (i + 1) (n - (i + 1)))).done,
          s.dd + (removeSmallerVisualDuplicates locked s.fs
            (innerVisual decode resize i
              ⟨s.recs, none, [((s.recs i).dims.1 + (s.recs i).dims.2, pi)], s.done + 1⟩
              (List.range' (i + 1) (n - (i + 1)))).group).2,
          s.groups ++ [(innerVisual decode resize i
            ⟨s.recs, none, [((s.recs i).dims.1 + (s.recs i).dims.2, pi)], s.done + 1⟩
            (List.range' (i + 1) (n - (i + 1)))).group]⟩
        hr1
        (by
          intro g hg k hk
          rcases List.mem_append.mp hg with hgo | hgn
          · exact h2 g hgo k hk
          · have : g = (innerVisual decode resize i
                ⟨s.recs, none, [((s.recs i).dims.1 + (s.recs i).dims.2, pi)], s.done + 1⟩
                (List.range' (i + 1) (n - (i + 1)))).group := by simpa using hgn
            rw [this] at hk
            exact hr2 k hk)
      refine ⟨ho1, ho2, ?_⟩
      rw [ho3]
      exact removeSmaller_fs_other locked s.fs _ p hr2

/-- Permutation fact for the double sort (shared helper). -/
lemma imageDoubleSort_perm (l : List ImageRec) : (imageDoubleSort l).Perm l :=
  (List.perm_insertionSort imageRecLe _).trans (List.perm_insertionSort _ l)

/-- **C9.** An image whose decode fails during feature precomputation gets
the sentinel record `(0, (-999, -999), (999, 999, 999), None)`; throughout
the whole visual-dedup phase no record ever carries its path, its file is
left untouched on disk, and it is never merged into any duplicate group. -/
theorem visualDedup_unreadable_never_deleted (decode : String → Option Img)
    (resize : Img → Int × Int → Img) (locked : String → Bool)
    (walk : List String) (fs : FS) (p : String) (hdec : decode p = none) :
    imageWithInfo decode p = ⟨0, (-999, -999), some (999, 999, 999), none⟩ ∧
    (∀ k, ((visualDedupPhase decode resize locked walk fs).recs k).path ≠ some p) ∧
    (visualDedupPhase decode resize locked walk fs).fs p = fs p ∧
    (∀ g ∈ (visualDedupPhase decode resize locked walk fs).groups,
      ∀ k ∈ g, k.2 ≠ p) := by
  have hsent : imageWithInfo decode p = ⟨0, (-999, -999), some (999, 999, 999), none⟩ := by
    unfold imageWithInfo
    rw [hdec]
  have hall : ∀ x ∈ imageDoubleSort (walk.map (imageWithInfo decode)),
      x.path ≠ some p := by
    intro x hx
    have hx2 : x ∈ walk.map (imageWithInfo decode) :=
      (imageDoubleSort_perm _).mem_iff.mp hx
    obtain ⟨q, _, hq⟩ := List.mem_map.mp hx2
    intro hcon
    rw [← hq] at hcon
    unfold imageWithInfo at hcon
    cases hdq : decode q with
    | none => rw [hdq] at hcon; simp at hcon
    | some img =>
      rw [hdq] at hcon
      dsimp only at hcon
      have hqp : q = p := by
        split at hcon
        · simpa using hcon
        · simpa using hcon
      rw [hqp, hdec] at hdq
      exact Option.noConfusion hdq
  have hinit : ∀ k, (((fun k => (imageDoubleSort (walk.map (imageWithInfo decode))).getD k
      ⟨0, (-999, -999), some (999, 999, 999), none⟩) : Nat → ImageRec) k).path ≠ some p := by
    intro k
    show ((imageDoubleSort (walk.map (imageWithInfo decode))).getD k
      ⟨0, (-999, -999), some (999, 999, 999), none⟩).path ≠ some p
    rw [List.getD_eq_getElem?_getD]
    cases hg : (imageDoubleSort (walk.map (imageWithInfo decode)))[k]? with
    | none => simp
    | some x =>
      have hx : x ∈ imageDoubleSort (walk.map (imageWithInfo decode)) :=
        List.getElem?_mem hg
      simpa using hall x hx
  obtain ⟨h1, h2, h3⟩ := outerVisual_pres decode resize locked
    (imageDoubleSort (walk.map (imageWithInfo decode))).length p
    (List.range' 0 (imageDoubleSort (walk.map (imageWithInfo decode))).length)
    ⟨fun k => (imageDoubleSort (walk.map (imageWithInfo decode))).getD k
        ⟨0, (-999, -999), some (999, 999, 999), none⟩, fs, 0, 0, []⟩
    hinit (by simp)
  exact ⟨hsent, h1, h3, h2⟩

/-- A decode oracle where image `a` is unreadable and `b` decodes fine. -/
def c9decode : String → Option Img :=
  fun q => if q = "b" then some ⟨"RGB", (2, 1), [[0, 0, 0]]⟩ else none

def c9fs : FS := fun q => if q = "a" ∨ q = "b" then some [7] else none

/-- Witness for `visualDedup_unreadable_never_deleted` with a concrete run. -/
theorem visualDedup_unreadable_never_deleted_witness :
    imageWithInfo c9decode "a" = ⟨0, (-999, -999), some (999, 999, 999), none⟩ ∧
    (∀ k, ((visualDedupPhase c9decode c5resize (fun _ => false) ["a", "b"] c9fs).recs
      k).path ≠ some "a") ∧
    (visualDedupPhase c9decode c5resize (fun _ => false) ["a", "b"] c9fs).fs "a"
      = c9fs "a" ∧
    (∀ g ∈ (visualDedupPhase c9decode c5resize (fun _ => false) ["a", "b"] c9fs).groups,
      ∀ k ∈ g, k.2 ≠ "a") :=
  visualDedup_unreadable_never_deleted c9decode c5resize (fun _ => false)
    ["a", "b"] c9fs "a" (by decide)

/-! ## The normalized-text deduplication phase (src lines 1364-1407) -/

/-- Python truthiness of a path slot: `None` and the empty string are falsy. -/
def pyFalsy : Option String → Bool
  | none => true
  | some s => s = ""

/-- Python's ascending tuple order on `(normalizedLength, path)` pairs. -/
def textPairLe (a b : Nat × String) : Prop :=
  a.1 < b.1 ∨ (a.1 = b.1 ∧ pyStrLe a.2 b.2 = true)

instance : DecidableRel textPairLe := by
  unfold textPairLe; infer_instance

/-- State of the text-dedup scan: the mutable `files` list of
`(normalizedLength, path)` tuples (a removed entry becomes `(0, None)`),
the filesystem and the `done`/`actuallyDeduped` counters. -/
structure TState where
  recs : Nat → Nat × Option String
  fs : FS
  done : Nat
  dd : Nat

def updTRec (recs : Nat → Nat × Option String) (j : Nat) (r : Nat × Option String) :
    Nat → Nat × Option String :=
  fun k => if k = j then r else recs k

/-- Inner loop of the text dedup (src lines 1392-1405).  `contents` is the
*unsorted* normalized-content array indexed by the same loop indices —
faithful to the source, where `contents` is never re-sorted alongside
`files`. -/
def innerText (contents : Nat → String) (locked : String → Bool) (i : Nat)
    (s : TState) : List Nat → TState
  | [] => s
  | j :: js =>
    if pyFalsy (s.recs j).2 ∨ (s.recs j).1 = 0 ∨ contents j = "" then
      innerText contents locked i s js
    else if (s.recs i).1 ≠ (s.recs j).1 then s
    else if (contents i).front ≠ (contents j).front then innerText contents locked i s js
    else if (contents i).back ≠ (contents j).back then innerText contents locked i s js
    else if contents i = contents j then
      innerText contents locked i
        { s with recs := updTRec s.recs j (0, none),
                 fs := removeFileM locked s.fs ((s.recs j).2.getD ""),
                 done := s.done + 1,
                 dd := s.dd + 1 } js
    else innerText contents locked i s js

/-- Outer loop of the text dedup (src lines 1388-1391). -/
def outerText (contents : Nat → String) (locked : String → Bool) (n : Nat)
    (s : TState) : List Nat → TState
  | [] => s
  | i :: is =>
    if pyFalsy (s.recs i).2 ∨ (s.recs i).1 = 0 ∨ contents i = "" then
      outerText contents locked n s is
    else
      outerText contents locked n
        (innerText contents locked i { s with done := s.done + 1 }
          (List.range' (i + 1) (n - (i + 1)))) is

/-- The whole text-dedup phase (src lines 1369-1405): normalize each walked
file (`norm` abstracts the worker of lines 1375-1383), zip lengths with
paths (line 1386), sort the `(length, path)` pairs descending (line 1387) —
while `contents` stays in the original walk order — then scan.  -/
def textDedupPhase (norm : String → String) (locked : String → Bool)
    (walk : List String) (fs : FS) : TState :=
  let contentsL := walk.map norm
  let pairs := List.zipWith (fun c p => (String.length c, p)) contentsL walk
  let sortedPairs := pySorted (fun a b => textPairLe b a) pairs
  outerText (fun k => contentsL.getD k "") locked sortedPairs.length
    ⟨fun k => ((sortedPairs.getD k (0, "")).1, some (sortedPairs.getD k (0, "")).2),
      fs, 0, 0⟩
    (List.range' 0 sortedPairs.length)

/-- Normalized contents for the C3 scenario: `/c` and `/d` are genuine
duplicates, `/b` and `/a` are unique. -/
def c3norm : String → String :=
  fun p =>
    if p = "/a" then "ff"
    else if p = "/c" then "dd"
    else if p = "/d" then "dd"
    else if p = "/b" then "ee"
    else ""

def c3fs : FS :=
  fun p => if p = "/a" ∨ p = "/b" ∨ p = "/c" ∨ p = "/d" then some [1] else none

def c3out : TState :=
  textDedupPhase c3norm (fun _ => false) ["/a", "/c", "/d", "/b"] c3fs

/-- **C3.** With walk order `/a, /c, /d, /b`, the phase deletes `/b` — whose
normalized content `"ee"` equals no other file's — and keeps both `/c` and
`/d`, which are genuine normalized duplicates: after line 1387 sorts
`files` while `contents` stays in walk order, the comparison
`contents[i] == contents[j]` no longer refers to the files being compared,
so deletion is not gated by the deleted file's own normalized content. -/
theorem textDedup_deletes_unique_content :
    c3out.fs "/b" = none ∧
    c3out.fs "/a" = some [1] ∧ c3out.fs "/c" = some [1] ∧ c3out.fs "/d" = some [1] ∧
    c3norm "/b" ≠ c3norm "/a" ∧ c3norm "/b" ≠ c3norm "/c" ∧
    c3norm "/b" ≠ c3norm "/d" ∧ c3norm "/c" = c3norm "/d" ∧
    c3out.dd = 1 := by
  refine ⟨?_, ?_, ?_, ?_, by decide, by decide, by decide, by decide, ?_⟩
  · decide
  · decide
  · decide
  · decide
  · decide
